import Mathlib

/-!
Verification of the PowerGraph streaming edge-partitioning core:
the edge decision oracle (`ingress_edge_decision.hpp`), the HDRF ingress
front-end (`distributed_hdrf_ingress.hpp`) and the cuckoo hash map
(`cuckoo_map.hpp`), embedded shallowly.

Modelling conventions:
* C++ `size_t` / `vertex_id_type` / `procid_t` values are embedded as `Nat`;
  where 64-bit overflow matters (the bit-mixing hash) we reduce `% 2^64`.
* C++ `double` arithmetic in the scoring functions is embedded as exact
  rational (`ℚ`) arithmetic; every quantity appearing in the claims is
  exactly representable, and the `1e-5` tie tolerance is embedded as
  `1/100000`.
* `graph_hash::hash_edge` lives in `graph_hash.hpp`, which is not part of
  the provided sources; the spec only states that deciders hash the
  canonical pair, so the edge hash is kept abstract as a parameter
  `hashEdge : Nat × Nat → Nat` of every decider.
-/

/-! ### Replica presence bit-vectors (`fixed_dense_bitset<RPC_MAX_N_PROCS>`) -/

/-- A replica presence vector: bit `i` says machine `i` already holds a
replica.  `fixed_dense_bitset` is modelled as a total boolean function;
the spec only requires O(1) `get` / `set_bit` / `clear`. -/
def Bitset : Type := Nat → Bool

/-- All bits cleared (`fixed_dense_bitset::clear`). -/
def emptyBitset : Bitset := fun _ => false

/-- `fixed_dense_bitset::set_bit`. -/
def setBit (b : Bitset) (p : Nat) : Bitset := fun i => if i = p then true else b i

/-! ### Small list min/max helpers (`std::min_element` / `std::max_element`) -/

/-- `*std::min_element(l.begin(), l.end())` for a nonempty list
(the C++ call is undefined on an empty range; we return 0 there). -/
def nmin : List Nat → Nat
  | [] => 0
  | x :: xs => xs.foldl min x

/-- `*std::max_element(l.begin(), l.end())` for a nonempty list. -/
def nmax : List Nat → Nat
  | [] => 0
  | x :: xs => xs.foldl max x

/-- `*std::max_element` over a list of scores (doubles, embedded as `ℚ`). -/
def qmax : List ℚ → ℚ
  | [] => 0
  | x :: xs => xs.foldl max x

/-! ### The edge decision oracle (`ingress_edge_decision.hpp`) -/

/-- The canonical pair `(min(u,v), max(u,v))` every decider hashes. -/
def canonicalPair (s t : Nat) : Nat × Nat := (min s t, max s t)

/-- `edge_to_proc_random (source, target, numprocs)`
(`ingress_edge_decision.hpp` lines 49-56). -/
def edge_to_proc_random (hashEdge : Nat × Nat → Nat) (source target numprocs : Nat) :
    Nat :=
  hashEdge (canonicalPair source target) % numprocs

/-- `edge_to_proc_random (source, target, candidates)` — the restricted form
returning `candidates[hash % candidates.size()]`
(`ingress_edge_decision.hpp` lines 59-67). -/
def edge_to_proc_random_list (hashEdge : Nat × Nat → Nat) (source target : Nat)
    (candidates : List Nat) : Nat :=
  candidates.getD (hashEdge (canonicalPair source target) % candidates.length) 0

/-- The balance term
`(maxedges - proc_num_edges[i]) / (epsilon + maxedges - minedges)` with
`epsilon = 1.0`; the numerator is `size_t` subtraction. -/
def balQ (load : List Nat) (i : Nat) : ℚ :=
  ((nmax load - load.getD i 0 : Nat) : ℚ) / (1 + (nmax load : ℚ) - (nmin load : ℚ))

/-- `sd = src_degree.get(i) + (usehash && (source % numprocs == i))`
— the per-endpoint count the scorers threshold with `> 0`. -/
def sdCount (b : Bitset) (useh : Bool) (vtx numprocs i : Nat) : Nat :=
  (if b i then 1 else 0) + (if useh && (vtx % numprocs == i) then 1 else 0)

/-- One machine's greedy score
`proc_score[i] = bal + ((sd > 0) + (td > 0))`
(`ingress_edge_decision.hpp` lines 92-97). -/
def greedyScore (useh : Bool) (numprocs : Nat) (src dst : Bitset)
    (source target : Nat) (load : List Nat) (i : Nat) : ℚ :=
  balQ load i +
    ((if 0 < sdCount src useh source numprocs i then (1 : ℚ) else 0) +
     (if 0 < sdCount dst useh target numprocs i then (1 : ℚ) else 0))

/-- One machine's HDRF score
`proc_score[i] = bal + new_sd + new_td`, where `new_sd = 1 + (1 - fu)` when
the (hash-extended) source presence count is positive
(`ingress_edge_decision.hpp` lines 222-236). -/
def hdrfScore (useh : Bool) (numprocs : Nat) (src dst : Bitset)
    (source target : Nat) (fu fv : ℚ) (load : List Nat) (i : Nat) : ℚ :=
  balQ load i +
    (if 0 < sdCount src useh source numprocs i then 1 + (1 - fu) else 0) +
    (if 0 < sdCount dst useh target numprocs i then 1 + (1 - fv) else 0)

/-- The `1e-5` tie tolerance. -/
def tol : ℚ := 1 / 100000

/-- `top_procs`: the machines whose score is within `1e-5` of the maximum
(`fabs(proc_score[i] - maxscore) < 1e-5`). -/
def topProcs (scores : List ℚ) : List Nat :=
  (List.range scores.length).filter (fun i => decide (|scores.getD i 0 - qmax scores| < tol))

/-- `top_procs[hash_edge(edge_pair) % top_procs.size()]` — the deterministic
hash tie-break on the canonical pair. -/
def tieBreak (hashEdge : Nat × Nat → Nat) (source target : Nat) (top : List Nat) :
    Nat :=
  top.getD (hashEdge (canonicalPair source target) % top.length) 0

/-- `++proc_num_edges[best_proc]`. -/
def incrAt (l : List Nat) (i : Nat) : List Nat := l.set i (l.getD i 0 + 1)

/-- Result of one greedy decision: the returned machine together with the
final values of the by-reference arguments. -/
structure GreedyRes where
  proc : Nat
  srcDeg : Bitset
  dstDeg : Bitset
  load : List Nat

/-- `edge_to_proc_greedy (source, target, src_degree, dst_degree,
proc_num_edges, usehash, userecent)` (`ingress_edge_decision.hpp`
lines 75-120): score every machine, tie-break by hashing the canonical
pair, then (optionally clear and) set the winner's replica bits and
increment its load. -/
def edge_to_proc_greedy (hashEdge : Nat × Nat → Nat) (source target : Nat)
    (src_degree dst_degree : Bitset) (proc_num_edges : List Nat)
    (usehash userecent : Bool) : GreedyRes :=
  let numprocs := proc_num_edges.length
  let scores := (List.range numprocs).map
    (greedyScore usehash numprocs src_degree dst_degree source target proc_num_edges)
  let best := tieBreak hashEdge source target (topProcs scores)
  let src1 := if userecent then emptyBitset else src_degree
  let dst1 := if userecent then emptyBitset else dst_degree
  { proc := best
    srcDeg := setBit src1 best
    dstDeg := setBit dst1 best
    load := incrAt proc_num_edges best }

/-- Result of one HDRF decision. -/
structure HdrfRes where
  proc : Nat
  srcDeg : Bitset
  dstDeg : Bitset
  srcTrue : Nat
  dstTrue : Nat
  load : List Nat

/-- `edge_to_proc_hdrf` (`ingress_edge_decision.hpp` lines 192-261):
`degree_u = src_true_degree + 1`, `fu = degree_u / (degree_u + degree_v)`,
degree-weighted replica bonus, same balance term and tie-break as greedy;
afterwards set the winner's bits, bump its load and both true degrees. -/
def edge_to_proc_hdrf (hashEdge : Nat × Nat → Nat) (source target : Nat)
    (src_degree dst_degree : Bitset) (src_true_degree dst_true_degree : Nat)
    (proc_num_edges : List Nat) (usehash userecent : Bool) : HdrfRes :=
  let numprocs := proc_num_edges.length
  let degree_u := src_true_degree + 1
  let degree_v := dst_true_degree + 1
  let SUM := degree_u + degree_v
  let fu : ℚ := (degree_u : ℚ) / (SUM : ℚ)
  let fv : ℚ := (degree_v : ℚ) / (SUM : ℚ)
  let scores := (List.range numprocs).map
    (hdrfScore usehash numprocs src_degree dst_degree source target fu fv proc_num_edges)
  let best := tieBreak hashEdge source target (topProcs scores)
  let src1 := if userecent then emptyBitset else src_degree
  let dst1 := if userecent then emptyBitset else dst_degree
  { proc := best
    srcDeg := setBit src1 best
    dstDeg := setBit dst1 best
    srcTrue := src_true_degree + 1
    dstTrue := dst_true_degree + 1
    load := incrAt proc_num_edges best }

/-- The greedy score the spec's words for claim C5 describe: the hash
fallback *adds* 1 to the bonus on top of the replica-bit indicator, so a
machine with both gets a side contribution of 2.  (This is the second,
spec-side definition of a refinement claim; the code-side definition is
`greedyScore`.) -/
def greedyScoreSpecC5 (useh : Bool) (numprocs : Nat) (src dst : Bitset)
    (source target : Nat) (load : List Nat) (i : Nat) : ℚ :=
  balQ load i +
    ((if src i then (1 : ℚ) else 0) + (if useh && (source % numprocs == i) then 1 else 0) +
     ((if dst i then (1 : ℚ) else 0) + (if useh && (target % numprocs == i) then 1 else 0)))

/-! ### The HDRF ingress front-end (`distributed_hdrf_ingress.hpp`)

The front-end owns two tables mapping vertex ids to a replica bit-vector
(`dht`) and a true-degree counter (`degree_dht`).  The concrete container
is `cuckoo_map_pow2`, whose source is not part of the provided files.

Modelled from the spec: `cuckoo_map_pow2` is not under the provided
sources; per §4.2 the table's contract used here is only
`lookup-or-default(key) → mutable reference` (entries created lazily with
a zero value), so both tables are modelled as total functions with the
zero default built in. -/

structure HdrfState where
  dht : Nat → Bitset
  degree_dht : Nat → Nat
  proc_num_edges : List Nat
  usehash : Bool
  userecent : Bool
  /-- Edge records handed to `edge_exchange.send`, newest first:
  `(owning_proc, (source, target))`. -/
  sent : List (Nat × Nat × Nat)

/-- The state built by the `distributed_hdrf_ingress` constructor:
empty tables, `proc_num_edges(dc.numprocs())` all zero. -/
def hdrfInit (numprocs : Nat) (usehash userecent : Bool) : HdrfState :=
  { dht := fun _ => emptyBitset
    degree_dht := fun _ => 0
    proc_num_edges := List.replicate numprocs 0
    usehash := usehash
    userecent := userecent
    sent := [] }

/-- `distributed_hdrf_ingress::add_edge` (`distributed_hdrf_ingress.hpp`
lines 86-97): look up both endpoints' table entries, run the HDRF decider,
store the mutated entries and forward the record to the owner. -/
def HdrfState.add_edge (hashEdge : Nat × Nat → Nat) (st : HdrfState)
    (source target : Nat) : HdrfState :=
  let r := edge_to_proc_hdrf hashEdge source target (st.dht source) (st.dht target)
    (st.degree_dht source) (st.degree_dht target) st.proc_num_edges
    st.usehash st.userecent
  { st with
    dht := fun v => if v = target then r.dstDeg else if v = source then r.srcDeg else st.dht v
    degree_dht := fun v => if v = target then r.dstTrue else if v = source then r.srcTrue else st.degree_dht v
    proc_num_edges := r.load
    sent := (r.proc, source, target) :: st.sent }

/-- A sequence of `add_edge` calls (one loader, no concurrent finalize). -/
def HdrfState.addEdges (hashEdge : Nat × Nat → Nat) (st : HdrfState)
    (es : List (Nat × Nat)) : HdrfState :=
  es.foldl (fun s e => s.add_edge hashEdge e.1 e.2) st

/-- `distributed_hdrf_ingress::finalize` (`distributed_hdrf_ingress.hpp`
lines 99-111): clear both tables, delegate to the base ingress, then log
`count = Σ_i proc_num_edges[i]` — a sum over this machine's own local
load vector.  Returns the cleared state and the logged count. -/
def HdrfState.finalize (st : HdrfState) : HdrfState × Nat :=
  ({ st with dht := fun _ => emptyBitset, degree_dht := fun _ => 0 },
   st.proc_num_edges.sum)

/-! ### The cuckoo hash map (`cuckoo_map.hpp`)

`cuckoo_map<Key, Value, CuckooK = 3, ...>` with `Key` instantiated to the
unsigned vertex id (`Nat`).  Empty slots store the caller-supplied
illegal key.  `boost::unordered_map` (the stash) is modelled as an
association list; `boost::rand48` (`kranddist(drng)`, seeded with
`time(NULL)`) is modelled as an explicit stream `rng` of draws together
with a position, so every theorem holds for every seed.  `boost::hash`
is kept abstract as the `hashfun` field.  The recursion
`do_insert → reserve → rehash → insert → do_insert` is bounded by an
explicit fuel; `none` means the fuel ran out. -/

structure CuckooMap (V : Type) where
  illegalkey : Nat
  numel : Nat
  maxstash : Nat
  data : List (Nat × V)
  stash : List (Nat × V)
  rng : Nat → Nat
  rngPos : Nat
  hashfun : Nat → Nat

/-- The eight 64-bit mixing constants of `compute_hash`. -/
def hashA : Nat → Nat
  | 0 => 0x6306AA9DFC13C8E7
  | 1 => 0xA8CD7FBCA2A9FFD4
  | 2 => 0x40D341EB597ECDDC
  | 3 => 0x99CFA1168AF8DA7E
  | 4 => 0x7C55BCC3AF531D42
  | 5 => 0x1BC49DB0842A21DD
  | 6 => 0x2181F03B1DEE299F
  | _ => 0xD524D92CBFEC63E9

/-- Bob Jenkin's integer mix (`cuckoo_map::mix`) on 64-bit `size_t`:
additions and left shifts wrap modulo `2^64`. -/
def mix64 (s0 : Nat) : Nat :=
  let M := 2 ^ 64
  let s1 := (s0 + (s0 <<< 12)) % M
  let s2 := s1 ^^^ (s1 >>> 22)
  let s3 := (s2 + (s2 <<< 4)) % M
  let s4 := s3 ^^^ (s3 >>> 9)
  let s5 := (s4 + (s4 <<< 10)) % M
  let s6 := s5 ^^^ (s5 >>> 2)
  let s7 := (s6 + (s6 <<< 7)) % M
  s7 ^^^ (s7 >>> 12)

/-- `compute_hash(k, seed) = mix(a[seed] ^ k) % datalen`. -/
def computeHash (datalen : Nat) (hashOfK : Nat) (seed : Nat) : Nat :=
  mix64 ((hashA seed ^^^ hashOfK) % 2 ^ 64) % datalen

/-- The key currently stored in slot `i` (empty slots hold the sentinel). -/
def slotKey {V : Type} [Inhabited V] (m : CuckooMap V) (i : Nat) : Nat :=
  (m.data.getD i (m.illegalkey, default)).1

/-- The pair currently stored in slot `i`. -/
def slotPair {V : Type} [Inhabited V] (m : CuckooMap V) (i : Nat) : Nat × V :=
  m.data.getD i (m.illegalkey, default)

/-- The `CuckooK = 3` candidate slots probed for a key hash, in probe
order `seed = 0, 1, 2`. -/
def probeListLen (datalen hashOfK : Nat) : List Nat :=
  (List.range 3).map (computeHash datalen hashOfK)

/-- Candidate slots of key `k` in map `m`. -/
def probeList {V : Type} (m : CuckooMap V) (k : Nat) : List Nat :=
  probeListLen m.data.length (m.hashfun k)

/-- Where `find` locates a key: a main-array slot or the stash. -/
inductive CLoc where
  | inData (i : Nat)
  | inStash (k : Nat)
deriving DecidableEq, Repr

/-- The main-array part of `cuckoo_map::find`: the first candidate slot
whose stored key equals `k` (`cuckoo_map.hpp` lines 544-551). -/
def findData {V : Type} [Inhabited V] (m : CuckooMap V) (k : Nat) : Option Nat :=
  (probeList m k).find? (fun idx => slotKey m idx == k)

/-- `cuckoo_map::find`: probe the candidate slots, else fall through to
`stash.find(k)`. -/
def findLoc {V : Type} [Inhabited V] (m : CuckooMap V) (k : Nat) : Option CLoc :=
  match findData m k with
  | some i => some (CLoc.inData i)
  | none => (m.stash.lookup k).map (fun _ => CLoc.inStash k)

/-- `cuckoo_map::count` (`cuckoo_map.hpp` lines 562-569): true if a
candidate slot's key matches, else `stash.count(k)`. -/
def countB {V : Type} [Inhabited V] (m : CuckooMap V) (k : Nat) : Bool :=
  (findData m k).isSome || (m.stash.lookup k).isSome

/-- Read the value a location refers to. -/
def readLoc {V : Type} [Inhabited V] (m : CuckooMap V) : CLoc → V
  | CLoc.inData i => (m.data.getD i (m.illegalkey, default)).2
  | CLoc.inStash k => (m.stash.lookup k).getD default

/-- `find` followed by reading `iter->second`. -/
def findVal {V : Type} [Inhabited V] (m : CuckooMap V) (k : Nat) : Option V :=
  (findLoc m k).map (readLoc m)

/-- Replace the value stored under key `k` in the stash. -/
def assocSet {V : Type} : List (Nat × V) → Nat → V → List (Nat × V)
  | [], _, _ => []
  | p :: rest, k, v => if p.1 = k then (k, v) :: rest else p :: assocSet rest k v

/-- `boost::unordered_map::insert`: keeps the existing entry if the key
is already present. -/
def stashInsert {V : Type} (l : List (Nat × V)) (kv : Nat × V) : List (Nat × V) :=
  if (l.lookup kv.1).isSome then l else kv :: l

/-- Writing a value through the reference an iterator points to
(the assignment in `map[k] = v`). -/
def writeLoc {V : Type} [Inhabited V] (m : CuckooMap V) : CLoc → V → CuckooMap V
  | CLoc.inData i, v => { m with data := m.data.set i ((m.data.getD i (m.illegalkey, default)).1, v) }
  | CLoc.inStash k, v => { m with stash := assocSet m.stash k v }

/-- `cuckoo_map::erase(key)` (`cuckoo_map.hpp` lines 572-590): `find`,
then blank the slot back to the sentinel (main array) or erase from the
stash, decrementing `numel`. -/
def eraseKey {V : Type} [Inhabited V] (m : CuckooMap V) (k : Nat) : CuckooMap V :=
  match findLoc m k with
  | none => m
  | some (CLoc.inData i) =>
      if slotKey m i = m.illegalkey then m
      else { m with data := m.data.set i (m.illegalkey, default), numel := m.numel - 1 }
  | some (CLoc.inStash k') =>
      { m with stash := m.stash.eraseP (fun p => p.1 == k'), numel := m.numel - 1 }

/-- `if (insertpos == -1) insertpos = idx; else if (insertpos == idx)
insertpos = -1;` — tracking where the originally inserted value lives
during the random walk (`-1` is `none`). -/
def updateIpos : Option Nat → Nat → Option Nat
  | none, idx => some idx
  | some p, idx => if p = idx then none else some p

/-- Outcome of the bounded cuckoo random walk: the in-hand value was
placed into an empty slot, or 100 iterations failed and the hand goes to
the stash. -/
inductive WalkRes (V : Type) where
  | placed (data : List (Nat × V)) (pos : Nat) (ipos : Option Nat)
  | full (data : List (Nat × V)) (pos : Nat) (hand : Nat × V) (ipos : Option Nat)

/-- The `for (int i = 0; i < 100; ++i)` displacement walk of
`cuckoo_map::do_insert` (`cuckoo_map.hpp` lines 318-350): probe the
hand's candidate slots for an empty one; otherwise evict a random
candidate and continue with the evicted pair in hand. -/
def cuckooWalk {V : Type} [Inhabited V] (illegal : Nat) (hashfun rng : Nat → Nat) :
    Nat → List (Nat × V) → Nat → Nat × V → Option Nat → WalkRes V
  | 0, data, pos, hand, ipos => WalkRes.full data pos hand ipos
  | steps + 1, data, pos, hand, ipos =>
    let hk := hashfun hand.1
    let cands := probeListLen data.length hk
    match cands.find? (fun idx => (data.getD idx (illegal, default)).1 == illegal) with
    | some idx =>
        WalkRes.placed (data.set idx hand) pos (updateIpos ipos idx)
    | none =>
        let idx := computeHash data.length hk (rng pos % 3)
        let ipos' := updateIpos ipos idx
        if (data.getD idx (illegal, default)).1 == illegal then
          WalkRes.placed (data.set idx hand) (pos + 1) ipos'
        else
          cuckooWalk illegal hashfun rng steps (data.set idx hand) (pos + 1)
            (data.getD idx (illegal, default)) ipos'

/-- `reserve(datalen * 1.5)` target size (`(size_t)` truncation). -/
def growLen (len : Nat) : Nat := len * 3 / 2

mutual

/-- `cuckoo_map::do_insert` (`cuckoo_map.hpp` lines 306-362): resize when
the stash is over the threshold, bump `numel`, run the displacement walk,
stash the hand after 100 failures.  Returns the new map and the location
the returned iterator points to. -/
def cm_do_insert {V : Type} [Inhabited V] :
    Nat → CuckooMap V → Nat × V → Option (CuckooMap V × CLoc)
  | 0, _, _ => none
  | fuel + 1, m, kv =>
    (if m.stash.length > m.maxstash then cm_reserve fuel m (growLen m.data.length)
     else some m).bind fun m1 =>
      let m2 := { m1 with numel := m1.numel + 1 }
      match cuckooWalk m2.illegalkey m2.hashfun m2.rng 100 m2.data m2.rngPos kv none with
      | WalkRes.placed d p ipos =>
          some ({ m2 with data := d, rngPos := p },
                (ipos.map CLoc.inData).getD (CLoc.inData m2.data.length))
      | WalkRes.full d p hand ipos =>
          some ({ m2 with data := d, rngPos := p, stash := stashInsert m2.stash hand },
                match ipos with
                | some q => CLoc.inData q
                | none => CLoc.inStash hand.1)

/-- `cuckoo_map::insert` (`cuckoo_map.hpp` lines 532-536): `find` first,
only `do_insert` when absent. -/
def cm_insert {V : Type} [Inhabited V] :
    Nat → CuckooMap V → Nat × V → Option (CuckooMap V)
  | 0, _, _ => none
  | fuel + 1, m, kv =>
    if (findLoc m kv.1).isSome then some m
    else (cm_do_insert fuel m kv).map Prod.fst

/-- `cuckoo_map::reserve` (`cuckoo_map.hpp` lines 523-530): `realloc` the
array (new slots filled with the sentinel), then `rehash`. -/
def cm_reserve {V : Type} [Inhabited V] :
    Nat → CuckooMap V → Nat → Option (CuckooMap V)
  | 0, _, _ => none
  | fuel + 1, m, newlen =>
    let d :=
      if newlen ≤ m.data.length then m.data.take newlen
      else m.data ++ List.replicate (newlen - m.data.length) (m.illegalkey, default)
    cm_rehash fuel { m with data := d }

/-- `cuckoo_map::rehash` (`cuckoo_map.hpp` lines 498-519): swap the stash
out, debit `numel`, re-place every live slot that is no longer at one of
its candidate slots, then reinsert the old stash. -/
def cm_rehash {V : Type} [Inhabited V] :
    Nat → CuckooMap V → Option (CuckooMap V)
  | 0, _ => none
  | fuel + 1, m =>
    let stmp := m.stash
    let m0 := { m with stash := [], numel := m.numel - stmp.length }
    (cm_rehash_slots fuel m0 0).bind fun m1 => cm_rehash_stash fuel m1 stmp

/-- The slot scan `for (size_t i = 0; i < datalen; ++i)` inside `rehash`
(`datalen` is re-read every iteration, so the bound tracks growth from
nested resizes). -/
def cm_rehash_slots {V : Type} [Inhabited V] :
    Nat → CuckooMap V → Nat → Option (CuckooMap V)
  | 0, _, _ => none
  | fuel + 1, m, i =>
    if i < m.data.length then
      (if slotKey m i = m.illegalkey then some m
       else if countB m (slotKey m i) then some m
       else
         cm_insert fuel
           { m with data := m.data.set i (m.illegalkey, default), numel := m.numel - 1 }
           (slotPair m i)).bind fun m' => cm_rehash_slots fuel m' (i + 1)
    else some m

/-- The stash drain at the end of `rehash`. -/
def cm_rehash_stash {V : Type} [Inhabited V] :
    Nat → CuckooMap V → List (Nat × V) → Option (CuckooMap V)
  | 0, _, _ => none
  | _ + 1, m, [] => some m
  | fuel + 1, m, kv :: rest =>
      (cm_insert fuel m kv).bind fun m' => cm_rehash_stash fuel m' rest

end

/-- `map[k] = v`: `operator[]` (`cuckoo_map.hpp` lines 605-610) —
`find`, `do_insert` a default-valued entry when absent — followed by an
assignment through the returned reference. -/
def cm_accessWrite {V : Type} [Inhabited V] (fuel : Nat) (m : CuckooMap V)
    (k : Nat) (v : V) : Option (CuckooMap V) :=
  match findLoc m k with
  | some loc => some (writeLoc m loc v)
  | none => (cm_do_insert fuel m (k, default)).map fun r => writeLoc r.1 r.2 v

/-- `insert` over a list of pairs, left to right. -/
def cm_insertList {V : Type} [Inhabited V] (fuel : Nat) (m : CuckooMap V) :
    List (Nat × V) → Option (CuckooMap V)
  | [] => some m
  | kv :: rest => (cm_insert fuel m kv).bind fun m' => cm_insertList fuel m' rest

/-- The live entries of the main array: slots not holding the sentinel. -/
def liveList {V : Type} (m : CuckooMap V) : List (Nat × V) :=
  m.data.filter (fun p => p.1 != m.illegalkey)

/-- What iterating `begin()`..`end()` yields: the live main-array slots in
order, then the stash. -/
def entries {V : Type} (m : CuckooMap V) : List (Nat × V) :=
  liveList m ++ m.stash

/-- The state after the `cuckoo_map(illegalkey, stashsize)` constructor:
`reserve(128)` on an empty table (the constructor's `rehash` scans 128
sentinel slots and is a no-op). -/
def cuckooInit (V : Type) [Inhabited V] (ill : Nat) (stashsize : Nat)
    (hashfun rng : Nat → Nat) : CuckooMap V :=
  { illegalkey := ill
    numel := 0
    maxstash := stashsize
    data := List.replicate 128 (ill, default)
    stash := []
    rng := rng
    rngPos := 0
    hashfun := hashfun }

/-- The keys of an entry list. -/
def keysOf {V : Type} (l : List (Nat × V)) : List Nat := l.map Prod.fst

/-- Slot `j` is *good*: empty, or holding a key at one of that key's
candidate slots (the placement discipline every insertion follows). -/
def GSlot {V : Type} [Inhabited V] (m : CuckooMap V) (j : Nat) : Prop :=
  slotKey m j = m.illegalkey ∨ j ∈ probeList m (slotKey m j)

/-- A non-sentinel key occupies at most one slot of the main array. -/
def UniqSlots {V : Type} [Inhabited V] (m : CuckooMap V) : Prop :=
  ∀ i, i < m.data.length → ∀ j, j < m.data.length →
    slotKey m i = slotKey m j → slotKey m i ≠ m.illegalkey → i = j

/-- The structural part of well-formedness: a nonempty array, slot-key
uniqueness, a duplicate-free stash disjoint from the array and without
the sentinel, and `numel` counting the entries. -/
def BaseOK {V : Type} [Inhabited V] (m : CuckooMap V) : Prop :=
  0 < m.data.length ∧
  UniqSlots m ∧
  (keysOf m.stash).Nodup ∧
  (∀ kv ∈ m.stash, kv.1 ≠ m.illegalkey) ∧
  (∀ kv ∈ m.stash, kv.1 ∉ keysOf (liveList m)) ∧
  m.numel = (entries m).length

/-- Well-formedness of a map state: the structural invariants plus every
slot being good. -/
def WF {V : Type} [Inhabited V] (m : CuckooMap V) : Prop :=
  BaseOK m ∧ ∀ j, j < m.data.length → GSlot m j

instance {V : Type} [Inhabited V] (m : CuckooMap V) : Decidable (BaseOK m) := by
  unfold BaseOK UniqSlots; infer_instance

instance {V : Type} [Inhabited V] (m : CuckooMap V) : Decidable (WF m) := by
  unfold WF GSlot; infer_instance

/-- A small concrete two-slot table used to exercise `operator[]`,
`erase` and `count` on an explicit run. -/
def mC8 : CuckooMap Nat :=
  { illegalkey := 99, numel := 0, maxstash := 8,
    data := [(99, 0), (99, 0)], stash := [],
    rng := fun _ => 0, rngPos := 0, hashfun := fun k => k }

/-- The state `mC8` reaches after `map[5] = 7`. -/
def mC8res : CuckooMap Nat :=
  { illegalkey := 99, numel := 1, maxstash := 8,
    data := [(5, 7), (99, 0)], stash := [],
    rng := fun _ => 0, rngPos := 0, hashfun := fun k => k }

/-- A freshly constructed `cuckoo_map<uint32_t,uint32_t>(7, 8)`: 128
sentinel-filled slots, nothing ever inserted. -/
def c10map : CuckooMap Nat := cuckooInit Nat 7 8 (fun k => k) (fun _ => 0)

/-- A tiny two-slot table whose hash sends the keys 1 and 2 to slot 0:
inserting four distinct keys overflows the (zero-capacity) stash and
forces a resize from 2 to 3 slots. -/
def c9map : CuckooMap Nat :=
  { illegalkey := 99, numel := 0, maxstash := 0,
    data := [(99, 0), (99, 0)], stash := [],
    rng := fun _ => 0, rngPos := 0, hashfun := fun k => if k ≤ 2 then 0 else k }

/-- Four distinct key-value pairs inserted into `c9map`. -/
def c9kvs : List (Nat × Nat) := [(1, 11), (2, 12), (3, 13), (4, 14)]

/-- `c9map` after inserting `(1, 11)`. -/
def c9m1 : CuckooMap Nat :=
  { illegalkey := 99, numel := 1, maxstash := 0,
    data := [(1, 11), (99, 0)], stash := [],
    rng := fun _ => 0, rngPos := 0, hashfun := fun k => if k ≤ 2 then 0 else k }

/-- ... then `(2, 12)`. -/
def c9m2 : CuckooMap Nat :=
  { illegalkey := 99, numel := 2, maxstash := 0,
    data := [(1, 11), (2, 12)], stash := [],
    rng := fun _ => 0, rngPos := 0, hashfun := fun k => if k ≤ 2 then 0 else k }

/-- ... then `(3, 13)` (a full cuckoo walk spills into the stash). -/
def c9m3 : CuckooMap Nat :=
  { illegalkey := 99, numel := 3, maxstash := 0,
    data := [(1, 11), (2, 12)], stash := [(3, 13)],
    rng := fun _ => 0, rngPos := 100, hashfun := fun k => if k ≤ 2 then 0 else k }

/-- ... then `(4, 14)`: the stash bound trips, `reserve(3)` rehashes
everything into three slots, and the walk places the new pair. -/
def c9m4 : CuckooMap Nat :=
  { illegalkey := 99, numel := 4, maxstash := 0,
    data := [(4, 14), (1, 11), (3, 13)], stash := [(2, 12)],
    rng := fun _ => 0, rngPos := 200, hashfun := fun k => if k ≤ 2 then 0 else k }

/-! ### Helper lemmas: list max/min, tie-break selection, load updates -/

theorem foldl_max_choice {α : Type} [LinearOrder α] (xs : List α) (x : α) :
    xs.foldl max x = x ∨ xs.foldl max x ∈ xs := by
  induction xs generalizing x with
  | nil => left; rfl
  | cons y ys ih =>
    rcases ih (max x y) with h | h
    · rcases max_choice x y with h2 | h2 <;> rw [List.foldl_cons, h, h2]
      · left; rfl
      · right; exact List.mem_cons_self _ _
    · right; exact List.mem_cons_of_mem _ h

theorem qmax_mem (l : List ℚ) (h : l ≠ []) : qmax l ∈ l := by
  match l with
  | x :: xs =>
    rcases foldl_max_choice xs x with h1 | h1
    · rw [qmax, h1]; exact List.mem_cons_self _ _
    · rw [qmax]; exact List.mem_cons_of_mem _ h1

theorem topProcs_lt {scores : List ℚ} {x : Nat} (hx : x ∈ topProcs scores) :
    x < scores.length := by
  rw [topProcs, List.mem_filter, List.mem_range] at hx
  exact hx.1

theorem topProcs_ne_nil {scores : List ℚ} (h : scores ≠ []) : topProcs scores ≠ [] := by
  obtain ⟨n, hn, hget⟩ := List.mem_iff_getElem.mp (qmax_mem scores h)
  apply @List.ne_nil_of_mem Nat n (topProcs scores)
  rw [topProcs, List.mem_filter, List.mem_range]
  refine ⟨hn, ?_⟩
  rw [decide_eq_true_iff, List.getD_eq_getElem _ _ hn, hget, sub_self, abs_zero]
  rw [tol]; norm_num

theorem tieBreak_mem (h : Nat × Nat → Nat) (s t : Nat) {top : List Nat}
    (hne : top ≠ []) : tieBreak h s t top ∈ top := by
  have hlen : 0 < top.length := List.length_pos.mpr hne
  have hlt : h (canonicalPair s t) % top.length < top.length := Nat.mod_lt _ hlen
  rw [tieBreak, List.getD_eq_getElem _ _ hlt]
  exact List.getElem_mem _

theorem greedy_proc_lt (hashEdge : Nat × Nat → Nat) (s t : Nat) (src dst : Bitset)
    (load : List Nat) (uh ur : Bool) (hl : 0 < load.length) :
    (edge_to_proc_greedy hashEdge s t src dst load uh ur).proc < load.length := by
  have hlen : ((List.range load.length).map
      (greedyScore uh load.length src dst s t load)).length = load.length := by simp
  have hne : (List.range load.length).map
      (greedyScore uh load.length src dst s t load) ≠ [] := by
    intro hcon
    rw [← List.length_eq_zero] at hcon
    omega
  have := tieBreak_mem hashEdge s t (topProcs_ne_nil hne)
  have hx := topProcs_lt this
  rw [hlen] at hx
  exact hx

theorem hdrf_proc_lt (hashEdge : Nat × Nat → Nat) (s t : Nat) (src dst : Bitset)
    (du dv : Nat) (load : List Nat) (uh ur : Bool) (hl : 0 < load.length) :
    (edge_to_proc_hdrf hashEdge s t src dst du dv load uh ur).proc < load.length := by
  have hlen : ((List.range load.length).map
      (hdrfScore uh load.length src dst s t
        (((du + 1 : Nat) : ℚ) / (((du + 1) + (dv + 1) : Nat) : ℚ))
        (((dv + 1 : Nat) : ℚ) / (((du + 1) + (dv + 1) : Nat) : ℚ)) load)).length
      = load.length := by simp
  have hne : (List.range load.length).map
      (hdrfScore uh load.length src dst s t
        (((du + 1 : Nat) : ℚ) / (((du + 1) + (dv + 1) : Nat) : ℚ))
        (((dv + 1 : Nat) : ℚ) / (((du + 1) + (dv + 1) : Nat) : ℚ)) load) ≠ [] := by
    intro hcon
    rw [← List.length_eq_zero] at hcon
    omega
  have := tieBreak_mem hashEdge s t (topProcs_ne_nil hne)
  have hx := topProcs_lt this
  rw [hlen] at hx
  exact hx

theorem length_incrAt (l : List Nat) (i : Nat) : (incrAt l i).length = l.length :=
  List.length_set l i _

theorem getD_incrAt_self {l : List Nat} {i : Nat} (h : i < l.length) :
    (incrAt l i).getD i 0 = l.getD i 0 + 1 := by
  have h2 : i < (incrAt l i).length := by rw [length_incrAt]; exact h
  rw [incrAt] at h2 ⊢
  rw [List.getD_eq_getElem _ _ h2, List.getElem_set_self]

theorem getD_incrAt_ne {l : List Nat} {i j : Nat} (hne : j ≠ i) :
    (incrAt l i).getD j 0 = l.getD j 0 := by
  by_cases hj : j < l.length
  · have hj2 : j < (incrAt l i).length := by rw [length_incrAt]; exact hj
    rw [incrAt] at hj2 ⊢
    rw [List.getD_eq_getElem _ _ hj2, List.getElem_set_ne (Ne.symm hne), List.getD_eq_getElem _ _ hj]
  · rw [List.getD_eq_default (incrAt l i) 0 (by rw [length_incrAt]; omega),
      List.getD_eq_default l 0 (by omega)]

theorem getD_incrAt_le (l : List Nat) (i j : Nat) :
    l.getD j 0 ≤ (incrAt l i).getD j 0 := by
  by_cases hji : j = i
  · subst hji
    by_cases hj : j < l.length
    · rw [getD_incrAt_self hj]; omega
    · rw [List.getD_eq_default _ _ (by omega)]; omega
  · rw [getD_incrAt_ne hji]

theorem sum_incrAt {l : List Nat} {i : Nat} (h : i < l.length) :
    (incrAt l i).sum = l.sum + 1 := by
  have hsplit : (List.take i l).sum + (List.drop i l).sum = l.sum := by
    rw [← List.sum_append, List.take_append_drop]
  have hdrop : List.drop i l = l[i] :: List.drop (i + 1) l := List.drop_eq_getElem_cons h
  have hget : l.getD i 0 = l[i] := List.getD_eq_getElem _ _ h
  rw [incrAt, List.sum_set]
  simp only [h, if_pos]
  rw [hget]
  rw [hdrop] at hsplit
  simp only [List.sum_cons] at hsplit
  omega

theorem canonicalPair_comm (u v : Nat) : canonicalPair u v = canonicalPair v u := by
  simp [canonicalPair, Nat.min_comm, Nat.max_comm]

theorem hdrf_load_eq (h : Nat × Nat → Nat) (s t : Nat) (src dst : Bitset)
    (du dv : Nat) (load : List Nat) (uh ur : Bool) :
    (edge_to_proc_hdrf h s t src dst du dv load uh ur).load
      = incrAt load (edge_to_proc_hdrf h s t src dst du dv load uh ur).proc := rfl

theorem greedy_load_eq (h : Nat × Nat → Nat) (s t : Nat) (src dst : Bitset)
    (load : List Nat) (uh ur : Bool) :
    (edge_to_proc_greedy h s t src dst load uh ur).load
      = incrAt load (edge_to_proc_greedy h s t src dst load uh ur).proc := rfl

theorem greedy_srcDeg_eq (h : Nat × Nat → Nat) (s t : Nat) (src dst : Bitset)
    (load : List Nat) (uh ur : Bool) :
    (edge_to_proc_greedy h s t src dst load uh ur).srcDeg
      = setBit (if ur then emptyBitset else src)
          (edge_to_proc_greedy h s t src dst load uh ur).proc := rfl

theorem greedy_dstDeg_eq (h : Nat × Nat → Nat) (s t : Nat) (src dst : Bitset)
    (load : List Nat) (uh ur : Bool) :
    (edge_to_proc_greedy h s t src dst load uh ur).dstDeg
      = setBit (if ur then emptyBitset else dst)
          (edge_to_proc_greedy h s t src dst load uh ur).proc := rfl

theorem hdrf_srcDeg_eq (h : Nat × Nat → Nat) (s t : Nat) (src dst : Bitset)
    (du dv : Nat) (load : List Nat) (uh ur : Bool) :
    (edge_to_proc_hdrf h s t src dst du dv load uh ur).srcDeg
      = setBit (if ur then emptyBitset else src)
          (edge_to_proc_hdrf h s t src dst du dv load uh ur).proc := rfl

theorem hdrf_dstDeg_eq (h : Nat × Nat → Nat) (s t : Nat) (src dst : Bitset)
    (du dv : Nat) (load : List Nat) (uh ur : Bool) :
    (edge_to_proc_hdrf h s t src dst du dv load uh ur).dstDeg
      = setBit (if ur then emptyBitset else dst)
          (edge_to_proc_hdrf h s t src dst du dv load uh ur).proc := rfl

theorem setBit_self (b : Bitset) (p : Nat) : setBit b p p = true := by
  simp [setBit]

theorem setBit_empty (p j : Nat) : setBit emptyBitset p j = true ↔ j = p := by
  simp [setBit, emptyBitset]

theorem add_edge_load_eq (h : Nat × Nat → Nat) (st : HdrfState) (s t : Nat) :
    (st.add_edge h s t).proc_num_edges
      = incrAt st.proc_num_edges
          ((edge_to_proc_hdrf h s t (st.dht s) (st.dht t) (st.degree_dht s)
            (st.degree_dht t) st.proc_num_edges st.usehash st.userecent).proc) := rfl

theorem addEdges_sum (h : Nat × Nat → Nat) (es : List (Nat × Nat)) :
    ∀ st : HdrfState, 0 < st.proc_num_edges.length →
      (HdrfState.addEdges h st es).proc_num_edges.sum
        = st.proc_num_edges.sum + es.length := by
  induction es with
  | nil => intro st _; rfl
  | cons e rest ih =>
    intro st hl
    have hp := hdrf_proc_lt h e.1 e.2 (st.dht e.1) (st.dht e.2) (st.degree_dht e.1)
      (st.degree_dht e.2) st.proc_num_edges st.usehash st.userecent hl
    have hlen : (st.add_edge h e.1 e.2).proc_num_edges.length
        = st.proc_num_edges.length := by
      rw [add_edge_load_eq, length_incrAt]
    have hsum : (st.add_edge h e.1 e.2).proc_num_edges.sum
        = st.proc_num_edges.sum + 1 := by
      rw [add_edge_load_eq, sum_incrAt hp]
    have := ih (st.add_edge h e.1 e.2) (by rw [hlen]; exact hl)
    show (HdrfState.addEdges h (st.add_edge h e.1 e.2) rest).proc_num_edges.sum = _
    rw [this, hsum, List.length_cons]
    omega

theorem addEdges_mono (h : Nat × Nat → Nat) (es : List (Nat × Nat)) :
    ∀ (st : HdrfState) (j : Nat),
      st.proc_num_edges.getD j 0
        ≤ (HdrfState.addEdges h st es).proc_num_edges.getD j 0 := by
  induction es with
  | nil => intro st j; exact le_refl _
  | cons e rest ih =>
    intro st j
    have h1 : st.proc_num_edges.getD j 0
        ≤ (st.add_edge h e.1 e.2).proc_num_edges.getD j 0 := by
      rw [add_edge_load_eq]; exact getD_incrAt_le _ _ _
    exact le_trans h1 (ih (st.add_edge h e.1 e.2) j)

theorem sdCount_pos_iff (b : Bitset) (useh : Bool) (v n i : Nat) :
    0 < sdCount b useh v n i ↔ (b i = true ∨ (useh = true ∧ v % n = i)) := by
  rw [sdCount]
  cases hb : b i <;> cases hu : useh <;> by_cases hv : v % n = i <;>
    simp [hb, hu, hv]

theorem random_list_mem (h : Nat × Nat → Nat) (s t : Nat) {c : List Nat}
    (hc : c ≠ []) : edge_to_proc_random_list h s t c ∈ c := by
  have hlen : 0 < c.length := List.length_pos.mpr hc
  have hlt : h (canonicalPair s t) % c.length < c.length := Nat.mod_lt _ hlen
  rw [edge_to_proc_random_list, List.getD_eq_getElem _ _ hlt]
  exact List.getElem_mem _

theorem topProcs_const {scores : List ℚ} {c : ℚ} (h : ∀ x ∈ scores, x = c) :
    topProcs scores = List.range scores.length := by
  rw [topProcs]
  apply List.filter_eq_self.mpr
  intro i hi
  rw [List.mem_range] at hi
  have hget : scores.getD i 0 = c := by
    rw [List.getD_eq_getElem _ _ hi]; exact h _ (List.getElem_mem _)
  have hne : scores ≠ [] := by
    intro hcon; rw [hcon] at hi; simp at hi
  have hq : qmax scores = c := h _ (qmax_mem scores hne)
  rw [decide_eq_true_iff, hget, hq, sub_self, abs_zero, tol]
  norm_num

theorem greedy_scores_swap (uh : Bool) (n : Nat) (sU sV : Bitset) (u v : Nat)
    (load : List Nat) :
    (List.range n).map (greedyScore uh n sU sV u v load)
      = (List.range n).map (greedyScore uh n sV sU v u load) := by
  apply List.map_congr_left; intro i _
  rw [greedyScore, greedyScore]; ring

theorem hdrf_scores_swap (uh : Bool) (n : Nat) (sU sV : Bitset) (u v du dv : Nat)
    (load : List Nat) :
    (List.range n).map (hdrfScore uh n sU sV u v
      (((du + 1 : Nat) : ℚ) / (((du + 1) + (dv + 1) : Nat) : ℚ))
      (((dv + 1 : Nat) : ℚ) / (((du + 1) + (dv + 1) : Nat) : ℚ)) load)
      = (List.range n).map (hdrfScore uh n sV sU v u
      (((dv + 1 : Nat) : ℚ) / (((dv + 1) + (du + 1) : Nat) : ℚ))
      (((du + 1 : Nat) : ℚ) / (((dv + 1) + (du + 1) : Nat) : ℚ)) load) := by
  apply List.map_congr_left; intro i _
  have hS : ((dv + 1) + (du + 1) : Nat) = ((du + 1) + (dv + 1) : Nat) := Nat.add_comm _ _
  rw [hdrfScore, hdrfScore, hS]; ring

/-! ### Claims C1-C7: the edge decision oracle and the HDRF front-end -/

/-- C1: HDRF with `numMachines = 4`, loads `[0,0,0,0]`, empty replica
vectors, zero true degrees and both flags off, deciding edge `(10, 7)`:
every machine's balance term and replica bonus are 0 (all scores tie at
0), the winner is `hash(canonical_pair(7,10)) mod 4`, the winner's load
becomes 1 while the others stay 0, and both true-degree counters end at
1.  (`graph_hash::hash_edge` is not in the provided sources, so the
result is proved for every hash function `h`.) -/
theorem hdrf_first_edge_scenario_C1 (h : Nat × Nat → Nat) :
    (∀ i, balQ [0,0,0,0] i = 0 ∧
      hdrfScore false 4 emptyBitset emptyBitset 10 7 ((1:ℚ)/2) ((1:ℚ)/2) [0,0,0,0] i = 0) ∧
    (edge_to_proc_hdrf h 10 7 emptyBitset emptyBitset 0 0 [0,0,0,0] false false).proc
      = h (7, 10) % 4 ∧
    (edge_to_proc_hdrf h 10 7 emptyBitset emptyBitset 0 0 [0,0,0,0] false false).load.getD
      (edge_to_proc_hdrf h 10 7 emptyBitset emptyBitset 0 0 [0,0,0,0] false false).proc 0 = 1 ∧
    (∀ j, j ≠ (edge_to_proc_hdrf h 10 7 emptyBitset emptyBitset 0 0 [0,0,0,0] false false).proc →
      (edge_to_proc_hdrf h 10 7 emptyBitset emptyBitset 0 0 [0,0,0,0] false false).load.getD j 0 = 0) ∧
    (edge_to_proc_hdrf h 10 7 emptyBitset emptyBitset 0 0 [0,0,0,0] false false).srcTrue = 1 ∧
    (edge_to_proc_hdrf h 10 7 emptyBitset emptyBitset 0 0 [0,0,0,0] false false).dstTrue = 1 := by
  have hbal : ∀ (l : List Nat) i, (∀ x ∈ l, x = 0) → balQ l i = 0 := by
    intro l i hz
    have hmax : nmax l = 0 := by
      match l with
      | [] => rfl
      | x :: xs =>
        rcases foldl_max_choice xs x with h1 | h1
        · rw [nmax, h1]; exact hz _ (List.mem_cons_self _ _)
        · rw [nmax]; exact hz _ (List.mem_cons_of_mem _ h1)
    simp [balQ, hmax]
  have hz4 : ∀ x ∈ ([0,0,0,0] : List Nat), x = 0 := by decide
  have hscore : ∀ (fu fv : ℚ) (i : Nat),
      hdrfScore false 4 emptyBitset emptyBitset 10 7 fu fv [0,0,0,0] i = 0 := by
    intro fu fv i
    rw [hdrfScore, hbal _ _ hz4]
    simp [sdCount, emptyBitset]
  have hproc : (edge_to_proc_hdrf h 10 7 emptyBitset emptyBitset 0 0 [0,0,0,0] false false).proc
      = h (7, 10) % 4 := by
    simp only [edge_to_proc_hdrf]
    rw [@topProcs_const _ 0 ?hc]
    case hc =>
      intro x hx
      obtain ⟨i, _, rfl⟩ := List.mem_map.mp hx
      exact hscore _ _ i
    rw [tieBreak]
    simp only [List.length_map, List.length_range]
    have hcp : canonicalPair 10 7 = (7, 10) := rfl
    rw [hcp]
    have hm : h (7,10) % 4 < 4 := Nat.mod_lt _ (by norm_num)
    have hm2 : h (7,10) % ([0,0,0,0] : List Nat).length = h (7,10) % 4 := rfl
    rw [hm2, List.getD_eq_getElem _ _ (by simpa using hm), List.getElem_range]
  have hz : ∀ j, ([0,0,0,0] : List Nat).getD j 0 = 0 := by
    intro j
    match j with
    | 0 => rfl
    | 1 => rfl
    | 2 => rfl
    | 3 => rfl
    | j + 4 => rfl
  have hplt : (edge_to_proc_hdrf h 10 7 emptyBitset emptyBitset 0 0 [0,0,0,0] false false).proc < 4 := by
    rw [hproc]; exact Nat.mod_lt _ (by norm_num)
  refine ⟨fun i => ⟨hbal _ i hz4, hscore _ _ i⟩, hproc, ?_, ?_, rfl, rfl⟩
  · rw [hdrf_load_eq, getD_incrAt_self (by simpa using hplt), hz]
  · intro j hj
    rw [hdrf_load_eq, getD_incrAt_ne hj, hz]

/-- C2 counterexample: the claim asserts every decider call returns an id
below the machine count, including the restricted random form on any
non-empty candidate list; but that form returns whatever candidate entry
the hash picks with no range check, so with candidate list `[5]` and a
single-machine cluster it returns 5, which is not `< 1`. -/
theorem random_candidates_out_of_range_C2 :
    edge_to_proc_random_list (fun _ => 0) 0 1 [5] = 5 ∧ ¬ (5 < 1) := by
  exact ⟨rfl, by decide⟩

/-- C2 (amended): plain random with `numprocs ≥ 1`, greedy and HDRF with
`proc_num_edges.size() ≥ 1` return a machine id `< numMachines` (so the
`ASSERT_LT(best_proc, numprocs)` abort branch is unreachable and the
tied-top set is never empty); the restricted random form returns an
element of its candidate list, hence an id `< numMachines` exactly when
every candidate is. -/
theorem decider_range_safety_C2 (h : Nat × Nat → Nat) (s t : Nat) (src dst : Bitset)
    (du dv : Nat) (load : List Nat) (c : List Nat) (uh ur : Bool) (n : Nat)
    (hn : 0 < n) (hl : 0 < load.length) (hc : c ≠ []) :
    edge_to_proc_random h s t n < n ∧
    edge_to_proc_random_list h s t c ∈ c ∧
    (edge_to_proc_greedy h s t src dst load uh ur).proc < load.length ∧
    (edge_to_proc_hdrf h s t src dst du dv load uh ur).proc < load.length :=
  ⟨Nat.mod_lt _ hn, random_list_mem h s t hc,
   greedy_proc_lt h s t src dst load uh ur hl,
   hdrf_proc_lt h s t src dst du dv load uh ur hl⟩

theorem decider_range_safety_C2_witness :
    (0 < 1 ∧ 0 < ([0] : List Nat).length ∧ ([5] : List Nat) ≠ []) ∧
    (edge_to_proc_random (fun _ => 0) 2 3 1 < 1 ∧
     edge_to_proc_random_list (fun _ => 0) 2 3 [5] ∈ [5] ∧
     (edge_to_proc_greedy (fun _ => 0) 2 3 emptyBitset emptyBitset [0] false false).proc < 1 ∧
     (edge_to_proc_hdrf (fun _ => 0) 2 3 emptyBitset emptyBitset 0 0 [0] false false).proc < 1) :=
  ⟨⟨by decide, by decide, by decide⟩,
   decider_range_safety_C2 (fun _ => 0) 2 3 emptyBitset emptyBitset 0 0 [0] [5]
     false false 1 (by decide) (by decide) (by decide)⟩

/-- C3: each greedy or HDRF decision increments exactly the returned
machine's load entry by one and decrements none; from the all-zero
vector of `hdrfInit`, after `N` sequential `add_edge` calls the load
vector sums to `N`; every entry is non-decreasing across calls. -/
theorem load_conservation_C3 (h : Nat × Nat → Nat) (s t : Nat) (src dst : Bitset)
    (du dv : Nat) (load : List Nat) (uh ur : Bool) (st0 : HdrfState)
    (es : List (Nat × Nat)) (n : Nat) (hl : 0 < load.length) (hn : 0 < n) :
    ((edge_to_proc_greedy h s t src dst load uh ur).load.getD
        (edge_to_proc_greedy h s t src dst load uh ur).proc 0
      = load.getD (edge_to_proc_greedy h s t src dst load uh ur).proc 0 + 1 ∧
     (∀ j, j ≠ (edge_to_proc_greedy h s t src dst load uh ur).proc →
        (edge_to_proc_greedy h s t src dst load uh ur).load.getD j 0 = load.getD j 0) ∧
     (∀ j, load.getD j 0 ≤ (edge_to_proc_greedy h s t src dst load uh ur).load.getD j 0) ∧
     (edge_to_proc_greedy h s t src dst load uh ur).load.sum = load.sum + 1) ∧
    ((edge_to_proc_hdrf h s t src dst du dv load uh ur).load.getD
        (edge_to_proc_hdrf h s t src dst du dv load uh ur).proc 0
      = load.getD (edge_to_proc_hdrf h s t src dst du dv load uh ur).proc 0 + 1 ∧
     (∀ j, j ≠ (edge_to_proc_hdrf h s t src dst du dv load uh ur).proc →
        (edge_to_proc_hdrf h s t src dst du dv load uh ur).load.getD j 0 = load.getD j 0) ∧
     (∀ j, load.getD j 0 ≤ (edge_to_proc_hdrf h s t src dst du dv load uh ur).load.getD j 0) ∧
     (edge_to_proc_hdrf h s t src dst du dv load uh ur).load.sum = load.sum + 1) ∧
    (HdrfState.addEdges h (hdrfInit n uh ur) es).proc_num_edges.sum = es.length ∧
    (∀ j, st0.proc_num_edges.getD j 0
        ≤ (HdrfState.addEdges h st0 es).proc_num_edges.getD j 0) := by
  have hg := greedy_proc_lt h s t src dst load uh ur hl
  have hh := hdrf_proc_lt h s t src dst du dv load uh ur hl
  refine ⟨⟨?_, ?_, ?_, ?_⟩, ⟨?_, ?_, ?_, ?_⟩, ?_, fun j => addEdges_mono h es st0 j⟩
  · rw [greedy_load_eq, getD_incrAt_self hg]
  · intro j hj; rw [greedy_load_eq, getD_incrAt_ne hj]
  · intro j; rw [greedy_load_eq]; exact getD_incrAt_le _ _ _
  · rw [greedy_load_eq, sum_incrAt hg]
  · rw [hdrf_load_eq, getD_incrAt_self hh]
  · intro j hj; rw [hdrf_load_eq, getD_incrAt_ne hj]
  · intro j; rw [hdrf_load_eq]; exact getD_incrAt_le _ _ _
  · rw [hdrf_load_eq, sum_incrAt hh]
  · rw [addEdges_sum h es (hdrfInit n uh ur) (by simpa [hdrfInit] using hn)]
    simp [hdrfInit]

theorem load_conservation_C3_witness :
    (0 < ([0] : List Nat).length ∧ 0 < 1) ∧
    ((edge_to_proc_greedy (fun _ => 0) 2 3 emptyBitset emptyBitset [0] false false).load.getD
        (edge_to_proc_greedy (fun _ => 0) 2 3 emptyBitset emptyBitset [0] false false).proc 0
      = ([0] : List Nat).getD (edge_to_proc_greedy (fun _ => 0) 2 3 emptyBitset emptyBitset [0] false false).proc 0 + 1 ∧
     (∀ j, j ≠ (edge_to_proc_greedy (fun _ => 0) 2 3 emptyBitset emptyBitset [0] false false).proc →
        (edge_to_proc_greedy (fun _ => 0) 2 3 emptyBitset emptyBitset [0] false false).load.getD j 0 = ([0] : List Nat).getD j 0) ∧
     (∀ j, ([0] : List Nat).getD j 0 ≤ (edge_to_proc_greedy (fun _ => 0) 2 3 emptyBitset emptyBitset [0] false false).load.getD j 0) ∧
     (edge_to_proc_greedy (fun _ => 0) 2 3 emptyBitset emptyBitset [0] false false).load.sum = ([0] : List Nat).sum + 1) ∧
    ((edge_to_proc_hdrf (fun _ => 0) 2 3 emptyBitset emptyBitset 0 0 [0] false false).load.getD
        (edge_to_proc_hdrf (fun _ => 0) 2 3 emptyBitset emptyBitset 0 0 [0] false false).proc 0
      = ([0] : List Nat).getD (edge_to_proc_hdrf (fun _ => 0) 2 3 emptyBitset emptyBitset 0 0 [0] false false).proc 0 + 1 ∧
     (∀ j, j ≠ (edge_to_proc_hdrf (fun _ => 0) 2 3 emptyBitset emptyBitset 0 0 [0] false false).proc →
        (edge_to_proc_hdrf (fun _ => 0) 2 3 emptyBitset emptyBitset 0 0 [0] false false).load.getD j 0 = ([0] : List Nat).getD j 0) ∧
     (∀ j, ([0] : List Nat).getD j 0 ≤ (edge_to_proc_hdrf (fun _ => 0) 2 3 emptyBitset emptyBitset 0 0 [0] false false).load.getD j 0) ∧
     (edge_to_proc_hdrf (fun _ => 0) 2 3 emptyBitset emptyBitset 0 0 [0] false false).load.sum = ([0] : List Nat).sum + 1) ∧
    (HdrfState.addEdges (fun _ => 0) (hdrfInit 1 false false) [(2,3)]).proc_num_edges.sum = 1 ∧
    (∀ j, (hdrfInit 1 false false).proc_num_edges.getD j 0
        ≤ (HdrfState.addEdges (fun _ => 0) (hdrfInit 1 false false) [(2,3)]).proc_num_edges.getD j 0) :=
  ⟨⟨by decide, by decide⟩,
   load_conservation_C3 (fun _ => 0) 2 3 emptyBitset emptyBitset 0 0 [0] false false
     (hdrfInit 1 false false) [(2,3)] 1 (by decide) (by decide)⟩

/-- C4: swapping source and target (with their per-vertex state) leaves
every decider's returned machine unchanged, because scoring is symmetric
in the two endpoints and the tie-break hashes the canonical pair
`(min(u,v), max(u,v))`. -/
theorem decision_symmetry_C4 (h : Nat × Nat → Nat) (u v : Nat) (sU sV : Bitset)
    (du dv : Nat) (load : List Nat) (c : List Nat) (uh ur : Bool) (n : Nat) :
    edge_to_proc_random h u v n = edge_to_proc_random h v u n ∧
    edge_to_proc_random_list h u v c = edge_to_proc_random_list h v u c ∧
    (edge_to_proc_greedy h u v sU sV load uh ur).proc
      = (edge_to_proc_greedy h v u sV sU load uh ur).proc ∧
    (edge_to_proc_hdrf h u v sU sV du dv load uh ur).proc
      = (edge_to_proc_hdrf h v u sV sU dv du load uh ur).proc := by
  refine ⟨?_, ?_, ?_, ?_⟩
  · rw [edge_to_proc_random, edge_to_proc_random, canonicalPair_comm]
  · rw [edge_to_proc_random_list, edge_to_proc_random_list, canonicalPair_comm]
  · simp only [edge_to_proc_greedy]
    rw [greedy_scores_swap, tieBreak, tieBreak, canonicalPair_comm]
  · simp only [edge_to_proc_hdrf]
    rw [hdrf_scores_swap, tieBreak, tieBreak, canonicalPair_comm]

/-- C5 counterexample: the claim says the hash-fallback adds 1 on top of
the replica-bit bonus, so a machine with both gets a source-side
contribution of 2; but the code computes `(sd > 0)`, an indicator, so
with `usehash`, machine 0 holding a source replica, `source = 0`,
`numMachines = 2` and zero loads the code's score is 1, not the claimed
2. -/
theorem greedy_score_saturates_C5 :
    greedyScore true 2 (setBit emptyBitset 0) emptyBitset 0 1 [0,0] 0 = 1 ∧
    greedyScoreSpecC5 true 2 (setBit emptyBitset 0) emptyBitset 0 1 [0,0] 0 = 2 ∧
    (1 : ℚ) ≠ 2 := by
  refine ⟨?_, ?_, by norm_num⟩
  · norm_num [greedyScore, sdCount, setBit, emptyBitset, balQ, nmax, nmin]
  · norm_num [greedyScoreSpecC5, setBit, emptyBitset, balQ, nmax, nmin]

/-- C5 (amended): machine `i`'s greedy score is `balance(i)` plus the
*indicator* `[srcReplica.hasBit(i) ∨ (usehash ∧ source mod n = i)]` plus
the same for the target: the hash fallback extends the replica condition
but the per-endpoint contribution saturates at 1 (a machine with both
replica and hash match gets 1, not 2). -/
theorem greedy_score_formula_C5 (uh : Bool) (n : Nat) (src dst : Bitset)
    (s t : Nat) (load : List Nat) (i : Nat) :
    greedyScore uh n src dst s t load i =
      balQ load i +
        ((if src i = true ∨ (uh = true ∧ s % n = i) then (1:ℚ) else 0) +
         (if dst i = true ∨ (uh = true ∧ t % n = i) then (1:ℚ) else 0)) := by
  rw [greedyScore,
    if_congr (sdCount_pos_iff src uh s n i) rfl rfl,
    if_congr (sdCount_pos_iff dst uh t n i) rfl rfl]

/-- C6 counterexample: in a two-machine cluster where machine 0 ingests
one edge and machine 1 ingests two, the cluster-wide total observed edge
count is 3, but machine 0's `finalize` logs the sum of its *own* local
`proc_num_edges` vector — 1, not 3 (and machine 1 logs 2): the logged
count is a local sum, not a collective reduction. -/
theorem finalize_logs_local_count_C6 :
    ((HdrfState.addEdges (fun _ => 0) (hdrfInit 2 false false) [(0,1)]).finalize).2 = 1 ∧
    ((HdrfState.addEdges (fun _ => 0) (hdrfInit 2 false false) [(2,3),(4,5)]).finalize).2 = 2 ∧
    ((HdrfState.addEdges (fun _ => 0) (hdrfInit 2 false false) [(0,1)]).finalize).2 ≠ 1 + 2 := by
  have h1 : ∀ es : List (Nat × Nat),
      ((HdrfState.addEdges (fun _ => (0:Nat)) (hdrfInit 2 false false) es).finalize).2
        = es.length := by
    intro es
    show (HdrfState.addEdges _ _ es).proc_num_edges.sum = es.length
    rw [addEdges_sum _ es _ (by simp [hdrfInit])]
    simp [hdrfInit]
  rw [h1, h1]
  refine ⟨rfl, rfl, by decide⟩

/-- C6 (amended): `finalize` clears both owned tables and then logs the
sum of this machine's own local per-machine load vector — the number of
edges decided locally (after `N` local `add_edge` calls it logs `N`) —
with no cross-machine reduction. -/
theorem finalize_amended_C6 (h : Nat × Nat → Nat) (st0 : HdrfState) (n : Nat)
    (uh ur : Bool) (es : List (Nat × Nat)) (hn : 0 < n) :
    st0.finalize.2 = st0.proc_num_edges.sum ∧
    (∀ v i, (st0.finalize.1).dht v i = false) ∧
    (∀ v, (st0.finalize.1).degree_dht v = 0) ∧
    ((HdrfState.addEdges h (hdrfInit n uh ur) es).finalize).2 = es.length := by
  refine ⟨rfl, fun v i => rfl, fun v => rfl, ?_⟩
  show (HdrfState.addEdges h _ es).proc_num_edges.sum = es.length
  rw [addEdges_sum h es _ (by simpa [hdrfInit] using hn)]
  simp [hdrfInit]

theorem finalize_amended_C6_witness :
    0 < 1 ∧
    ((hdrfInit 1 false false).finalize.2 = (hdrfInit 1 false false).proc_num_edges.sum ∧
     (∀ v i, ((hdrfInit 1 false false).finalize.1).dht v i = false) ∧
     (∀ v, ((hdrfInit 1 false false).finalize.1).degree_dht v = 0) ∧
     ((HdrfState.addEdges (fun _ => 0) (hdrfInit 1 false false) [(0,1),(2,3)]).finalize).2 = 2) :=
  ⟨by decide,
   finalize_amended_C6 (fun _ => 0) (hdrfInit 1 false false) 1 false false
     [(0,1),(2,3)] (by decide)⟩

/-- C7: after a greedy or HDRF decision returning machine `p`, bit `p`
is set in both endpoints' replica vectors; with the recency policy both
vectors are cleared before the set, so each ends as exactly the
singleton `{p}`; and `load[p]` is incremented by one. -/
theorem replica_bits_update_C7 (h : Nat × Nat → Nat) (s t : Nat) (src dst : Bitset)
    (du dv : Nat) (load : List Nat) (uh ur : Bool) (hl : 0 < load.length) :
    ((edge_to_proc_greedy h s t src dst load uh ur).srcDeg
        (edge_to_proc_greedy h s t src dst load uh ur).proc = true ∧
     (edge_to_proc_greedy h s t src dst load uh ur).dstDeg
        (edge_to_proc_greedy h s t src dst load uh ur).proc = true ∧
     (ur = true → ∀ j,
        ((edge_to_proc_greedy h s t src dst load uh ur).srcDeg j = true
          ↔ j = (edge_to_proc_greedy h s t src dst load uh ur).proc) ∧
        ((edge_to_proc_greedy h s t src dst load uh ur).dstDeg j = true
          ↔ j = (edge_to_proc_greedy h s t src dst load uh ur).proc)) ∧
     (edge_to_proc_greedy h s t src dst load uh ur).load.getD
        (edge_to_proc_greedy h s t src dst load uh ur).proc 0
       = load.getD (edge_to_proc_greedy h s t src dst load uh ur).proc 0 + 1) ∧
    ((edge_to_proc_hdrf h s t src dst du dv load uh ur).srcDeg
        (edge_to_proc_hdrf h s t src dst du dv load uh ur).proc = true ∧
     (edge_to_proc_hdrf h s t src dst du dv load uh ur).dstDeg
        (edge_to_proc_hdrf h s t src dst du dv load uh ur).proc = true ∧
     (ur = true → ∀ j,
        ((edge_to_proc_hdrf h s t src dst du dv load uh ur).srcDeg j = true
          ↔ j = (edge_to_proc_hdrf h s t src dst du dv load uh ur).proc) ∧
        ((edge_to_proc_hdrf h s t src dst du dv load uh ur).dstDeg j = true
          ↔ j = (edge_to_proc_hdrf h s t src dst du dv load uh ur).proc)) ∧
     (edge_to_proc_hdrf h s t src dst du dv load uh ur).load.getD
        (edge_to_proc_hdrf h s t src dst du dv load uh ur).proc 0
       = load.getD (edge_to_proc_hdrf h s t src dst du dv load uh ur).proc 0 + 1) := by
  have hg := greedy_proc_lt h s t src dst load uh ur hl
  have hh := hdrf_proc_lt h s t src dst du dv load uh ur hl
  refine ⟨⟨?_, ?_, ?_, ?_⟩, ⟨?_, ?_, ?_, ?_⟩⟩
  · rw [greedy_srcDeg_eq]; exact setBit_self _ _
  · rw [greedy_dstDeg_eq]; exact setBit_self _ _
  · intro hur j
    rw [greedy_srcDeg_eq, greedy_dstDeg_eq, hur, if_pos rfl]
    exact ⟨setBit_empty _ _, setBit_empty _ _⟩
  · rw [greedy_load_eq, getD_incrAt_self hg]
  · rw [hdrf_srcDeg_eq]; exact setBit_self _ _
  · rw [hdrf_dstDeg_eq]; exact setBit_self _ _
  · intro hur j
    rw [hdrf_srcDeg_eq, hdrf_dstDeg_eq, hur, if_pos rfl]
    exact ⟨setBit_empty _ _, setBit_empty _ _⟩
  · rw [hdrf_load_eq, getD_incrAt_self hh]

theorem replica_bits_update_C7_witness :
    0 < ([0] : List Nat).length ∧
    (((edge_to_proc_greedy (fun _ => 0) 2 3 emptyBitset emptyBitset [0] false true).srcDeg
        (edge_to_proc_greedy (fun _ => 0) 2 3 emptyBitset emptyBitset [0] false true).proc = true ∧
     (edge_to_proc_greedy (fun _ => 0) 2 3 emptyBitset emptyBitset [0] false true).dstDeg
        (edge_to_proc_greedy (fun _ => 0) 2 3 emptyBitset emptyBitset [0] false true).proc = true ∧
     (true = true → ∀ j,
        ((edge_to_proc_greedy (fun _ => 0) 2 3 emptyBitset emptyBitset [0] false true).srcDeg j = true
          ↔ j = (edge_to_proc_greedy (fun _ => 0) 2 3 emptyBitset emptyBitset [0] false true).proc) ∧
        ((edge_to_proc_greedy (fun _ => 0) 2 3 emptyBitset emptyBitset [0] false true).dstDeg j = true
          ↔ j = (edge_to_proc_greedy (fun _ => 0) 2 3 emptyBitset emptyBitset [0] false true).proc)) ∧
     (edge_to_proc_greedy (fun _ => 0) 2 3 emptyBitset emptyBitset [0] false true).load.getD
        (edge_to_proc_greedy (fun _ => 0) 2 3 emptyBitset emptyBitset [0] false true).proc 0
       = ([0] : List Nat).getD (edge_to_proc_greedy (fun _ => 0) 2 3 emptyBitset emptyBitset [0] false true).proc 0 + 1) ∧
    ((edge_to_proc_hdrf (fun _ => 0) 2 3 emptyBitset emptyBitset 0 0 [0] false true).srcDeg
        (edge_to_proc_hdrf (fun _ => 0) 2 3 emptyBitset emptyBitset 0 0 [0] false true).proc = true ∧
     (edge_to_proc_hdrf (fun _ => 0) 2 3 emptyBitset emptyBitset 0 0 [0] false true).dstDeg
        (edge_to_proc_hdrf (fun _ => 0) 2 3 emptyBitset emptyBitset 0 0 [0] false true).proc = true ∧
     (true = true → ∀ j,
        ((edge_to_proc_hdrf (fun _ => 0) 2 3 emptyBitset emptyBitset 0 0 [0] false true).srcDeg j = true
          ↔ j = (edge_to_proc_hdrf (fun _ => 0) 2 3 emptyBitset emptyBitset 0 0 [0] false true).proc) ∧
        ((edge_to_proc_hdrf (fun _ => 0) 2 3 emptyBitset emptyBitset 0 0 [0] false true).dstDeg j = true
          ↔ j = (edge_to_proc_hdrf (fun _ => 0) 2 3 emptyBitset emptyBitset 0 0 [0] false true).proc)) ∧
     (edge_to_proc_hdrf (fun _ => 0) 2 3 emptyBitset emptyBitset 0 0 [0] false true).load.getD
        (edge_to_proc_hdrf (fun _ => 0) 2 3 emptyBitset emptyBitset 0 0 [0] false true).proc 0
       = ([0] : List Nat).getD (edge_to_proc_hdrf (fun _ => 0) 2 3 emptyBitset emptyBitset 0 0 [0] false true).proc 0 + 1)) :=
  ⟨by decide,
   replica_bits_update_C7 (fun _ => 0) 2 3 emptyBitset emptyBitset 0 0 [0]
     false true (by decide)⟩

/-! ### Cuckoo map: list-level helper lemmas -/

theorem lookup_eq_none_iff {V : Type} (l : List (Nat × V)) (k : Nat) :
    l.lookup k = none ↔ k ∉ keysOf l := by
  induction l with
  | nil => simp [List.lookup, keysOf]
  | cons p rest ih =>
    rw [List.lookup]
    cases hb : (k == p.1) with
    | true =>
      have hk : k = p.1 := by simpa using hb
      simp [keysOf, hk]
    | false =>
      have hk : k ≠ p.1 := by simpa using hb
      simpa [keysOf, hk] using ih

theorem lookup_isSome_iff {V : Type} (l : List (Nat × V)) (k : Nat) :
    (l.lookup k).isSome = true ↔ k ∈ keysOf l := by
  rcases h : l.lookup k with _ | v
  · rw [lookup_eq_none_iff] at h
    simp [h]
  · have h2 : ¬ l.lookup k = none := by rw [h]; simp
    rw [lookup_eq_none_iff] at h2
    simp [not_not.mp h2]

theorem lookup_mem {V : Type} {l : List (Nat × V)} {k : Nat} {v : V}
    (h : l.lookup k = some v) : (k, v) ∈ l := by
  induction l with
  | nil => simp [List.lookup] at h
  | cons p rest ih =>
    rw [List.lookup] at h
    cases hb : (k == p.1) with
    | true =>
      rw [hb] at h
      have hk : k = p.1 := by simpa using hb
      cases h
      subst hk
      simp
    | false =>
      rw [hb] at h
      exact List.mem_cons_of_mem _ (ih h)

theorem find?_eq_some_unique {α : Type} (p : α → Bool) (l : List α) (x : α)
    (hx : x ∈ l) (hp : p x = true) (huniq : ∀ y ∈ l, p y = true → y = x) :
    l.find? p = some x := by
  induction l with
  | nil => simp at hx
  | cons a rest ih =>
    by_cases ha : p a = true
    · rw [List.find?_cons_of_pos _ ha, huniq a (List.mem_cons_self _ _) ha]
    · rw [List.find?_cons_of_neg _ (by simpa using ha)]
      rcases List.mem_cons.mp hx with rfl | hx2
      · exact absurd hp ha
      · exact ih hx2 (fun y hy hpy => huniq y (List.mem_cons_of_mem _ hy) hpy)

theorem computeHash_lt (len hk s : Nat) (h : 0 < len) : computeHash len hk s < len :=
  Nat.mod_lt _ h

theorem probeListLen_lt {len hk : Nat} (h : 0 < len) {i : Nat}
    (hi : i ∈ probeListLen len hk) : i < len := by
  rw [probeListLen] at hi
  obtain ⟨s, _, rfl⟩ := List.mem_map.mp hi
  exact computeHash_lt len hk s h

theorem computeHash_mem_probeListLen (len hk r : Nat) (hr : r < 3) :
    computeHash len hk r ∈ probeListLen len hk := by
  rw [probeListLen]
  exact List.mem_map.mpr ⟨r, List.mem_range.mpr hr, rfl⟩

theorem getD_set_self {α : Type} (d : List α) (i : Nat) (a dft : α)
    (h : i < d.length) : (d.set i a).getD i dft = a := by
  rw [List.getD_eq_getElem _ _ (by simpa using h), List.getElem_set_self]

theorem getD_set_ne {α : Type} (d : List α) (i j : Nat) (a dft : α)
    (h : j ≠ i) : (d.set i a).getD j dft = d.getD j dft := by
  by_cases hj : j < d.length
  · rw [List.getD_eq_getElem _ _ (by simpa using hj),
      List.getElem_set_ne (Ne.symm h), List.getD_eq_getElem _ _ hj]
  · rw [List.getD_eq_default _ _ (by simpa using (by omega : d.length ≤ j)),
      List.getD_eq_default _ _ (by omega)]

/-- The live entries of a raw slot array. -/
def liveL {V : Type} (ill : Nat) (d : List (Nat × V)) : List (Nat × V) :=
  d.filter (fun p => p.1 != ill)

theorem liveList_eq_liveL {V : Type} (m : CuckooMap V) :
    liveList m = liveL m.illegalkey m.data := rfl

theorem mem_liveL {V : Type} {ill : Nat} {d : List (Nat × V)} {p : Nat × V} :
    p ∈ liveL ill d ↔ p ∈ d ∧ p.1 ≠ ill := by
  rw [liveL, List.mem_filter, bne_iff_ne]

theorem liveL_append {V : Type} (ill : Nat) (a b : List (Nat × V)) :
    liveL ill (a ++ b) = liveL ill a ++ liveL ill b := List.filter_append _ _

theorem liveL_cons_live {V : Type} {ill : Nat} {p : Nat × V} (hp : p.1 ≠ ill)
    (rest : List (Nat × V)) : liveL ill (p :: rest) = p :: liveL ill rest := by
  rw [liveL, List.filter_cons, if_pos (by simpa using hp)]
  rfl

theorem liveL_cons_ill {V : Type} {ill : Nat} {p : Nat × V} (hp : p.1 = ill)
    (rest : List (Nat × V)) : liveL ill (p :: rest) = liveL ill rest := by
  rw [liveL, List.filter_cons, if_neg (by simpa using hp)]
  rfl

theorem liveL_replicate_ill {V : Type} (ill : Nat) (n : Nat) (w : V) :
    liveL ill (List.replicate n (ill, w)) = [] := by
  rw [liveL, List.filter_eq_nil_iff]
  intro p hp
  rw [List.eq_of_mem_replicate hp]
  simp

theorem liveL_set_of_empty {V : Type} [Inhabited V] {ill : Nat}
    {d : List (Nat × V)} {i : Nat} (h : i < d.length)
    (he : (d.getD i (ill, default)).1 = ill) {kv : Nat × V} (hk : kv.1 ≠ ill) :
    (liveL ill (d.set i kv)).Perm (kv :: liveL ill d) := by
  induction d generalizing i with
  | nil => simp at h
  | cons p rest ih =>
    match i with
    | 0 =>
      have hp : p.1 = ill := he
      show (liveL ill (kv :: rest)).Perm _
      rw [liveL_cons_live hk, liveL_cons_ill hp]
    | i + 1 =>
      have h2 : i < rest.length := by simpa using h
      have ih2 := ih h2 he
      show (liveL ill (p :: rest.set i kv)).Perm (kv :: liveL ill (p :: rest))
      by_cases hp : p.1 = ill
      · rw [liveL_cons_ill hp, liveL_cons_ill hp]
        exact ih2
      · rw [liveL_cons_live hp, liveL_cons_live hp]
        exact (ih2.cons p).trans (List.Perm.swap kv p _)

theorem liveL_set_of_live {V : Type} [Inhabited V] {ill : Nat}
    {d : List (Nat × V)} {i : Nat} (h : i < d.length)
    (he : (d.getD i (ill, default)).1 ≠ ill) {kv : Nat × V} (hk : kv.1 ≠ ill) :
    ((d.getD i (ill, default)) :: liveL ill (d.set i kv)).Perm (kv :: liveL ill d) := by
  induction d generalizing i with
  | nil => simp at h
  | cons p rest ih =>
    match i with
    | 0 =>
      have he' : p.1 ≠ ill := he
      show (p :: liveL ill (kv :: rest)).Perm (kv :: liveL ill (p :: rest))
      rw [liveL_cons_live hk, liveL_cons_live he']
      exact List.Perm.swap kv p _
    | i + 1 =>
      have h2 : i < rest.length := by simpa using h
      have ih2 := ih h2 he
      show ((rest.getD i (ill, default)) :: liveL ill (p :: rest.set i kv)).Perm
        (kv :: liveL ill (p :: rest))
      by_cases hp : p.1 = ill
      · rw [liveL_cons_ill hp, liveL_cons_ill hp]
        exact ih2
      · rw [liveL_cons_live hp, liveL_cons_live hp]
        refine (List.Perm.swap p _ _).trans ((ih2.cons p).trans (List.Perm.swap kv p _))

theorem liveL_set_to_empty {V : Type} [Inhabited V] {ill : Nat}
    {d : List (Nat × V)} {i : Nat} (h : i < d.length)
    (he : (d.getD i (ill, default)).1 ≠ ill) (w : V) :
    ((d.getD i (ill, default)) :: liveL ill (d.set i (ill, w))).Perm (liveL ill d) := by
  induction d generalizing i with
  | nil => simp at h
  | cons p rest ih =>
    match i with
    | 0 =>
      have he' : p.1 ≠ ill := he
      show (p :: liveL ill ((ill, w) :: rest)).Perm (liveL ill (p :: rest))
      rw [liveL_cons_ill (by simp : ((ill, w) : Nat × V).1 = ill),
        liveL_cons_live he']
    | i + 1 =>
      have h2 : i < rest.length := by simpa using h
      have ih2 := ih h2 he
      show ((rest.getD i (ill, default)) :: liveL ill (p :: rest.set i (ill, w))).Perm
        (liveL ill (p :: rest))
      by_cases hp : p.1 = ill
      · rw [liveL_cons_ill hp, liveL_cons_ill hp]
        exact ih2
      · rw [liveL_cons_live hp, liveL_cons_live hp]
        exact (List.Perm.swap p _ _).trans (ih2.cons p)

theorem mem_keys_liveL {V : Type} [Inhabited V] {ill : Nat} {d : List (Nat × V)}
    {k : Nat} (hk : k ≠ ill) :
    k ∈ keysOf (liveL ill d) ↔ ∃ i, i < d.length ∧ (d.getD i (ill, default)).1 = k := by
  constructor
  · intro hmem
    obtain ⟨p, hp, hpk⟩ := List.mem_map.mp hmem
    obtain ⟨hpd, _⟩ := mem_liveL.mp hp
    obtain ⟨i, hi, hget⟩ := List.mem_iff_getElem.mp hpd
    exact ⟨i, hi, by rw [List.getD_eq_getElem _ _ hi, hget, hpk]⟩
  · intro ⟨i, hi, hkey⟩
    apply List.mem_map.mpr
    refine ⟨d.getD i (ill, default), ?_, hkey⟩
    apply mem_liveL.mpr
    constructor
    · rw [List.getD_eq_getElem _ _ hi]
      exact List.getElem_mem _
    · rw [hkey]; exact hk

/-! ### Cuckoo map: the displacement walk specification -/

/-- Raw-array version of `GSlot`. -/
def gslotL {V : Type} [Inhabited V] (ill : Nat) (hf : Nat → Nat)
    (d : List (Nat × V)) (j : Nat) : Prop :=
  (d.getD j (ill, default)).1 = ill ∨
    j ∈ probeListLen d.length (hf (d.getD j (ill, default)).1)

/-- Raw-array version of `UniqSlots`. -/
def uniqL {V : Type} [Inhabited V] (ill : Nat) (d : List (Nat × V)) : Prop :=
  ∀ i, i < d.length → ∀ j, j < d.length →
    (d.getD i (ill, default)).1 = (d.getD j (ill, default)).1 →
    (d.getD i (ill, default)).1 ≠ ill → i = j

/-- Key `k` occurs in no slot of `d`. -/
def freshL {V : Type} [Inhabited V] (ill : Nat) (d : List (Nat × V)) (k : Nat) : Prop :=
  ∀ i, i < d.length → (d.getD i (ill, default)).1 ≠ k

/-- Invariant carried through the displacement walk: the array is
nonempty, the in-hand pair has a legal key not present in the array,
non-sentinel keys are unique, and `insertpos` correctly tracks where the
originally inserted pair `kv₀` lives. -/
def WalkInv {V : Type} [Inhabited V] (ill : Nat) (kv₀ : Nat × V)
    (d : List (Nat × V)) (hand : Nat × V) (ipos : Option Nat) : Prop :=
  0 < d.length ∧ hand.1 ≠ ill ∧ freshL ill d hand.1 ∧ uniqL ill d ∧
  (match ipos with
   | none => hand = kv₀
   | some p => p < d.length ∧ d.getD p (ill, default) = kv₀ ∧ hand.1 ≠ kv₀.1)

/-- What the walk guarantees, relative to the array `d0` and hand
`hand0` it started from: the array length is unchanged, the multiset of
live entries (plus the final hand, if any) gains exactly `hand0`, key
uniqueness survives, every slot is either good or untouched, and the
returned insert position points at the original pair `kv₀`. -/
def WalkOut {V : Type} [Inhabited V] (ill : Nat) (hf : Nat → Nat) (kv₀ : Nat × V)
    (d0 : List (Nat × V)) (hand0 : Nat × V) : WalkRes V → Prop
  | WalkRes.placed d' _ ipos' =>
      d'.length = d0.length ∧
      (liveL ill d').Perm (hand0 :: liveL ill d0) ∧
      uniqL ill d' ∧
      (∀ j, j < d'.length → gslotL ill hf d' j ∨
        d'.getD j (ill, default) = d0.getD j (ill, default)) ∧
      (∃ q, ipos' = some q ∧ q < d'.length ∧ d'.getD q (ill, default) = kv₀)
  | WalkRes.full d' _ hand' ipos' =>
      d'.length = d0.length ∧
      (hand' :: liveL ill d').Perm (hand0 :: liveL ill d0) ∧
      uniqL ill d' ∧
      (∀ j, j < d'.length → gslotL ill hf d' j ∨
        d'.getD j (ill, default) = d0.getD j (ill, default)) ∧
      hand'.1 ≠ ill ∧ freshL ill d' hand'.1 ∧
      (match ipos' with
       | none => hand' = kv₀
       | some q => q < d'.length ∧ d'.getD q (ill, default) = kv₀ ∧ hand'.1 ≠ kv₀.1)

theorem uniqL_set {V : Type} [Inhabited V] {ill : Nat} {d : List (Nat × V)}
    {idx : Nat} (hidx : idx < d.length) {hand : Nat × V}
    (hfresh : freshL ill d hand.1) (huniq : uniqL ill d) :
    uniqL ill (d.set idx hand) := by
  intro i hi j hj heq hne
  rw [List.length_set] at hi hj
  by_cases hie : i = idx <;> by_cases hje : j = idx
  · rw [hie, hje]
  · subst hie
    rw [getD_set_self _ _ _ _ hidx] at heq hne
    rw [getD_set_ne _ _ _ _ _ hje] at heq
    exact absurd heq.symm (hfresh j hj)
  · subst hje
    rw [getD_set_ne _ _ _ _ _ hie] at heq hne
    rw [getD_set_self _ _ _ _ hidx] at heq
    exact absurd heq (hfresh i hi)
  · rw [getD_set_ne _ _ _ _ _ hie] at heq hne
    rw [getD_set_ne _ _ _ _ _ hje] at heq
    exact huniq i hi j hj heq hne

theorem cuckooWalk_spec {V : Type} [Inhabited V] (ill : Nat) (hf rng : Nat → Nat)
    (kv₀ : Nat × V) (hkv : kv₀.1 ≠ ill) :
    ∀ (steps : Nat) (d : List (Nat × V)) (pos : Nat) (hand : Nat × V)
      (ipos : Option Nat), WalkInv ill kv₀ d hand ipos →
      WalkOut ill hf kv₀ d hand (cuckooWalk ill hf rng steps d pos hand ipos) := by
  intro steps
  induction steps with
  | zero =>
    intro d pos hand ipos hinv
    obtain ⟨h0, hh, hfr, hun, hip⟩ := hinv
    show WalkOut ill hf kv₀ d hand (WalkRes.full d pos hand ipos)
    exact ⟨rfl, List.Perm.refl _, hun, fun j hj => Or.inr rfl, hh, hfr, hip⟩
  | succ steps ih =>
    intro d pos hand ipos hinv
    obtain ⟨h0, hh, hfr, hun, hip⟩ := hinv
    rw [cuckooWalk]
    rcases hfind : (probeListLen d.length (hf hand.1)).find?
        (fun idx => (d.getD idx (ill, default)).1 == ill) with _ | idx
    · -- no empty candidate: evict a random candidate and recurse
      have hnone := List.find?_eq_none.mp hfind
      simp only []
      set idx := computeHash d.length (hf hand.1) (rng pos % 3) with hidxdef
      have hidx_mem : idx ∈ probeListLen d.length (hf hand.1) :=
        computeHash_mem_probeListLen _ _ _ (Nat.mod_lt _ (by norm_num))
      have hidx_lt : idx < d.length := probeListLen_lt h0 hidx_mem
      have hocc : (d.getD idx (ill, default)).1 ≠ ill := by
        simpa using hnone idx hidx_mem
      rw [if_neg (by simpa using hocc)]
      have hlen_set : (d.set idx hand).length = d.length := List.length_set _ _ _
      have hfr' : freshL ill (d.set idx hand) (d.getD idx (ill, default)).1 := by
        intro i hi
        rw [hlen_set] at hi
        by_cases hie : i = idx
        · subst hie
          rw [getD_set_self _ _ _ _ hidx_lt]
          exact fun hcon => hfr idx hidx_lt hcon.symm
        · rw [getD_set_ne _ _ _ _ _ hie]
          intro hcon
          exact absurd (hun i hi idx hidx_lt hcon (hcon ▸ hocc)) hie
      have hinv' : WalkInv ill kv₀ (d.set idx hand) (d.getD idx (ill, default))
          (updateIpos ipos idx) := by
        refine ⟨by rw [hlen_set]; exact h0, hocc, hfr', uniqL_set hidx_lt hfr hun, ?_⟩
        rcases ipos with _ | p
        · -- ipos = none : hand = kv₀ goes to slot idx
          have hext : hand = kv₀ := hip
          show idx < (d.set idx hand).length ∧ _ ∧ _
          refine ⟨by rw [hlen_set]; exact hidx_lt, ?_, ?_⟩
          · rw [getD_set_self _ _ _ _ hidx_lt, hext]
          · rw [← hext]
            exact fun hcon => hfr idx hidx_lt hcon
        · obtain ⟨hp_lt, hp_eq, hp_ne⟩ := hip
          rw [updateIpos]
          by_cases hpe : p = idx
          · rw [if_pos hpe]
            show (d.getD idx (ill, default)) = kv₀
            rw [← hpe, hp_eq]
          · rw [if_neg hpe]
            refine ⟨by rw [hlen_set]; exact hp_lt, ?_, ?_⟩
            · rw [getD_set_ne _ _ _ _ _ hpe, hp_eq]
            · intro hcon
              have : (d.getD idx (ill, default)).1 = (d.getD p (ill, default)).1 := by
                rw [hp_eq, hcon]
              exact hpe ((hun idx hidx_lt p hp_lt this (this ▸ (hp_eq ▸ hkv))).symm)
      have hout := ih (d.set idx hand) (pos + 1) (d.getD idx (ill, default))
        (updateIpos ipos idx) hinv'
      -- transport the conclusion from (d.set idx hand) back to d
      have hperm_mid : ((d.getD idx (ill, default)) :: liveL ill (d.set idx hand)).Perm
          (hand :: liveL ill d) := liveL_set_of_live hidx_lt hocc hh
      rcases hres : cuckooWalk ill hf rng steps (d.set idx hand) (pos + 1)
          (d.getD idx (ill, default)) (updateIpos ipos idx) with ⟨d', p', ipos'⟩ | ⟨d', p', hand', ipos'⟩
      · rw [hres] at hout
        obtain ⟨hlen', hperm', hun', hgood', hq'⟩ := hout
        refine ⟨by rw [hlen', hlen_set], ?_, hun', ?_, hq'⟩
        · exact hperm'.trans hperm_mid
        · intro j hj
          rcases hgood' j hj with hg | hsame
          · exact Or.inl hg
          · by_cases hje : j = idx
            · subst hje
              left
              rw [gslotL, hsame, getD_set_self _ _ _ _ hidx_lt]
              right
              rw [hlen', hlen_set]
              exact hidx_mem
            · right
              rw [hsame, getD_set_ne _ _ _ _ _ hje]
      · rw [hres] at hout
        obtain ⟨hlen', hperm', hun', hgood', hh', hfr2, hip'⟩ := hout
        refine ⟨by rw [hlen', hlen_set], ?_, hun', ?_, hh', hfr2, hip'⟩
        · exact hperm'.trans hperm_mid
        · intro j hj
          rcases hgood' j hj with hg | hsame
          · exact Or.inl hg
          · by_cases hje : j = idx
            · subst hje
              left
              rw [gslotL, hsame, getD_set_self _ _ _ _ hidx_lt]
              right
              rw [hlen', hlen_set]
              exact hidx_mem
            · right
              rw [hsame, getD_set_ne _ _ _ _ _ hje]
    · -- an empty candidate slot idx was found: place the hand there
      have hidx_mem := List.mem_of_find?_eq_some hfind
      have hempty : (d.getD idx (ill, default)).1 = ill := by
        simpa using List.find?_some hfind
      have hidx_lt : idx < d.length := probeListLen_lt h0 hidx_mem
      simp only []
      have hlen_set : (d.set idx hand).length = d.length := List.length_set _ _ _
      show WalkOut ill hf kv₀ d hand
        (WalkRes.placed (d.set idx hand) pos (updateIpos ipos idx))
      refine ⟨hlen_set, liveL_set_of_empty hidx_lt hempty hh,
        uniqL_set hidx_lt hfr hun, ?_, ?_⟩
      · intro j hj
        by_cases hje : j = idx
        · subst hje
          left
          rw [gslotL, getD_set_self _ _ _ _ hidx_lt]
          right
          rw [hlen_set]
          exact hidx_mem
        · right
          rw [getD_set_ne _ _ _ _ _ hje]
      · rcases ipos with _ | p
        · have hext : hand = kv₀ := hip
          refine ⟨idx, rfl, by rw [hlen_set]; exact hidx_lt, ?_⟩
          rw [getD_set_self _ _ _ _ hidx_lt, hext]
        · obtain ⟨hp_lt, hp_eq, hp_ne⟩ := hip
          have hpe : p ≠ idx := by
            intro hcon
            rw [hcon] at hp_eq
            exact hkv (by rw [← hp_eq]; exact hempty)
          rw [updateIpos, if_neg hpe]
          refine ⟨p, rfl, by rw [hlen_set]; exact hp_lt, ?_⟩
          rw [getD_set_ne _ _ _ _ _ hpe, hp_eq]

/-! ### Cuckoo map: find/count characterizations and transport lemmas -/

theorem GSlot_iff_gslotL {V : Type} [Inhabited V] (m : CuckooMap V) (j : Nat) :
    GSlot m j ↔ gslotL m.illegalkey m.hashfun m.data j := Iff.rfl

theorem UniqSlots_iff_uniqL {V : Type} [Inhabited V] (m : CuckooMap V) :
    UniqSlots m ↔ uniqL m.illegalkey m.data := Iff.rfl

/-- Pars preserved by every internal operation. -/
def SamePars {V : Type} (m m' : CuckooMap V) : Prop :=
  m'.illegalkey = m.illegalkey ∧ m'.maxstash = m.maxstash ∧
  m'.hashfun = m.hashfun ∧ m'.rng = m.rng

theorem SamePars.refl {V : Type} (m : CuckooMap V) : SamePars m m :=
  ⟨rfl, rfl, rfl, rfl⟩

theorem SamePars.trans {V : Type} {a b c : CuckooMap V}
    (h1 : SamePars a b) (h2 : SamePars b c) : SamePars a c :=
  ⟨h2.1.trans h1.1, h2.2.1.trans h1.2.1, h2.2.2.1.trans h1.2.2.1,
   h2.2.2.2.trans h1.2.2.2⟩

/-- Key `k` occurs in no slot and not in the stash. -/
def FreshPos {V : Type} [Inhabited V] (m : CuckooMap V) (k : Nat) : Prop :=
  (∀ i, i < m.data.length → slotKey m i ≠ k) ∧ m.stash.lookup k = none

/-- Every slot of `mNew` is good, or `mNew` agrees with `mOld` there (at
unchanged length). -/
def GoodOrOld {V : Type} [Inhabited V] (mOld mNew : CuckooMap V) : Prop :=
  ∀ j, j < mNew.data.length → GSlot mNew j ∨
    (mNew.data.length = mOld.data.length ∧ slotPair mNew j = slotPair mOld j)

/-- The returned location holds the inserted pair. -/
def LocHolds {V : Type} [Inhabited V] (m : CuckooMap V) (kv : Nat × V) :
    CLoc → Prop
  | CLoc.inData i => i < m.data.length ∧ slotPair m i = kv
  | CLoc.inStash k => k = kv.1 ∧ m.stash.lookup kv.1 = some kv.2

theorem GSlot_of_eq {V : Type} [Inhabited V] {m m' : CuckooMap V} {j : Nat}
    (hlen : m'.data.length = m.data.length) (hill : m'.illegalkey = m.illegalkey)
    (hhf : m'.hashfun = m.hashfun) (hslot : slotPair m' j = slotPair m j)
    (hg : GSlot m j) : GSlot m' j := by
  have hkey : slotKey m' j = slotKey m j := congrArg Prod.fst hslot
  rcases hg with hleft | hright
  · left
    rw [hkey, hill, hleft]
  · right
    rw [probeList, hkey, hlen, hhf]
    exact hright

theorem keysOf_entries {V : Type} (m : CuckooMap V) :
    keysOf (entries m) = keysOf (liveList m) ++ keysOf m.stash := by
  rw [entries, keysOf, List.map_append]
  rfl

theorem freshPos_iff {V : Type} [Inhabited V] (m : CuckooMap V) (k : Nat)
    (hk : k ≠ m.illegalkey) : FreshPos m k ↔ k ∉ keysOf (entries m) := by
  rw [keysOf_entries, FreshPos]
  constructor
  · intro ⟨hslots, hstash⟩ hmem
    rcases List.mem_append.mp hmem with hlive | hst
    · rw [liveList_eq_liveL, mem_keys_liveL hk] at hlive
      obtain ⟨i, hi, hkey⟩ := hlive
      exact hslots i hi hkey
    · exact absurd hst ((lookup_eq_none_iff _ _).mp hstash)
  · intro hmem
    constructor
    · intro i hi hkey
      apply hmem
      apply List.mem_append.mpr
      left
      rw [liveList_eq_liveL, mem_keys_liveL hk]
      exact ⟨i, hi, hkey⟩
    · rw [lookup_eq_none_iff]
      intro hst
      exact hmem (List.mem_append.mpr (Or.inr hst))

theorem findData_eq_none_of_fresh {V : Type} [Inhabited V] {m : CuckooMap V}
    {k : Nat} (h0 : 0 < m.data.length)
    (hfr : ∀ i, i < m.data.length → slotKey m i ≠ k) : findData m k = none := by
  rw [findData, List.find?_eq_none]
  intro idx hidx
  have := probeListLen_lt h0 hidx
  simpa using hfr idx this

theorem findLoc_eq_none_of_fresh {V : Type} [Inhabited V] {m : CuckooMap V}
    {k : Nat} (h0 : 0 < m.data.length) (hfr : FreshPos m k) :
    findLoc m k = none := by
  rw [findLoc, findData_eq_none_of_fresh h0 hfr.1, hfr.2]
  rfl

theorem findData_some_spec {V : Type} [Inhabited V] {m : CuckooMap V} {k : Nat}
    {i : Nat} (h0 : 0 < m.data.length) (h : findData m k = some i) :
    i < m.data.length ∧ slotKey m i = k ∧ i ∈ probeList m k := by
  have hmem := List.mem_of_find?_eq_some h
  have hp := List.find?_some h
  exact ⟨probeListLen_lt h0 hmem, by simpa using hp, hmem⟩

theorem findData_of_slot {V : Type} [Inhabited V] {m : CuckooMap V} {k i : Nat}
    (hk : k ≠ m.illegalkey) (hun : UniqSlots m)
    (hgood : ∀ j, j < m.data.length → GSlot m j) (h0 : 0 < m.data.length)
    (hi : i < m.data.length) (hkey : slotKey m i = k) : findData m k = some i := by
  have hgs : i ∈ probeList m k := by
    rcases hgood i hi with hl | hr
    · rw [hkey] at hl
      exact absurd hl hk
    · rw [hkey] at hr
      exact hr
  apply find?_eq_some_unique _ _ _ hgs (by simpa using hkey)
  intro y hy hpy
  have hy_lt : y < m.data.length := probeListLen_lt h0 hy
  have hykey : slotKey m y = k := by simpa using hpy
  exact hun y hy_lt i hi (by rw [hykey, hkey]) (by rw [hykey]; exact hk)

theorem getD_replicate {V : Type} (k i : Nat) (p : Nat × V) :
    (List.replicate k p).getD i p = p := by
  by_cases h : i < k
  · rw [List.getD_eq_getElem _ _ (by simpa using h), List.getElem_replicate]
  · rw [List.getD_eq_default _ _ (by simpa using (by omega : k ≤ i))]

theorem getD_append_left {α : Type} (a b : List α) (i : Nat) (dft : α)
    (h : i < a.length) : (a ++ b).getD i dft = a.getD i dft := by
  rw [List.getD_eq_getElem _ _ (by rw [List.length_append]; omega),
    List.getElem_append_left h, List.getD_eq_getElem _ _ h]

theorem lookup_cons_self {V : Type} (k : Nat) (v : V) (rest : List (Nat × V)) :
    ((k, v) :: rest).lookup k = some v := by
  rw [List.lookup]
  simp

theorem stashInsert_of_absent {V : Type} {l : List (Nat × V)} {kv : Nat × V}
    (h : l.lookup kv.1 = none) : stashInsert l kv = kv :: l := by
  rw [stashInsert, h]
  rfl

/-! ### Cuckoo map: specifications of the mutually recursive operations -/

/-- Postcondition of a successful `do_insert` of a fresh pair `kv`. -/
def DoPost {V : Type} [Inhabited V] (m : CuckooMap V) (kv : Nat × V)
    (out : CuckooMap V × CLoc) : Prop :=
  BaseOK out.1 ∧ GoodOrOld m out.1 ∧ SamePars m out.1 ∧
  m.data.length ≤ out.1.data.length ∧ (entries out.1).Perm (kv :: entries m) ∧
  LocHolds out.1 kv out.2

/-- Postcondition of a successful `insert`. -/
def InsPost {V : Type} [Inhabited V] (m : CuckooMap V) (kv : Nat × V)
    (m' : CuckooMap V) : Prop :=
  BaseOK m' ∧ GoodOrOld m m' ∧ SamePars m m' ∧ m.data.length ≤ m'.data.length ∧
  ((findLoc m kv.1).isSome = true → m' = m) ∧
  (findLoc m kv.1 = none → (entries m').Perm (kv :: entries m))

/-- Postcondition of a successful `reserve`/`rehash`: a fully well-formed
map with the same entries. -/
def FullPost {V : Type} [Inhabited V] (m m' : CuckooMap V) : Prop :=
  WF m' ∧ SamePars m m' ∧ m.data.length ≤ m'.data.length ∧
  (entries m').Perm (entries m)

def DoSpec (V : Type) [Inhabited V] (fuel : Nat) : Prop :=
  ∀ (m : CuckooMap V) (kv : Nat × V) out, BaseOK m → kv.1 ≠ m.illegalkey →
    FreshPos m kv.1 → cm_do_insert fuel m kv = some out → DoPost m kv out

def InsSpec (V : Type) [Inhabited V] (fuel : Nat) : Prop :=
  ∀ (m : CuckooMap V) (kv : Nat × V) m', BaseOK m → kv.1 ≠ m.illegalkey →
    (findLoc m kv.1 = none → FreshPos m kv.1) →
    cm_insert fuel m kv = some m' → InsPost m kv m'

def ResSpec (V : Type) [Inhabited V] (fuel : Nat) : Prop :=
  ∀ (m : CuckooMap V) (n : Nat) m', BaseOK m → m.data.length ≤ n →
    cm_reserve fuel m n = some m' → FullPost m m' ∧ n ≤ m'.data.length

def RehSpec (V : Type) [Inhabited V] (fuel : Nat) : Prop :=
  ∀ (m : CuckooMap V) m', BaseOK m → cm_rehash fuel m = some m' → FullPost m m'

def SlotsSpec (V : Type) [Inhabited V] (fuel : Nat) : Prop :=
  ∀ (m : CuckooMap V) (i : Nat) m', BaseOK m →
    (∀ j, j < i → j < m.data.length → GSlot m j) →
    cm_rehash_slots fuel m i = some m' → FullPost m m'

def StashSpec (V : Type) [Inhabited V] (fuel : Nat) : Prop :=
  ∀ (m : CuckooMap V) (rest : List (Nat × V)) m', WF m →
    (∀ kv ∈ rest, kv.1 ≠ m.illegalkey) → (keysOf rest).Nodup →
    (∀ kv ∈ rest, kv.1 ∉ keysOf (entries m)) →
    cm_rehash_stash fuel m rest = some m' →
    WF m' ∧ SamePars m m' ∧ m.data.length ≤ m'.data.length ∧
      (entries m').Perm (entries m ++ rest)

theorem getD_append_ill {V : Type} (a : List (Nat × V)) (k : Nat) (p : Nat × V)
    (j : Nat) (h : a.length ≤ j) : (a ++ List.replicate k p).getD j p = p := by
  by_cases hj : j < a.length + k
  · rw [List.getD_eq_getElem _ _ (by rw [List.length_append, List.length_replicate]; omega)]
    rw [List.getElem_append_right (by omega)]
    simp [List.getElem_replicate]
  · rw [List.getD_eq_default _ _ (by rw [List.length_append, List.length_replicate]; omega)]

theorem reserve_step {V : Type} [Inhabited V] (fuel : Nat)
    (hreh : RehSpec V fuel) : ResSpec V (fuel + 1) := by
  intro m n m' hbase hlen hrun
  simp only [cm_reserve] at hrun
  have hif : (if n ≤ m.data.length then m.data.take n
      else m.data ++ List.replicate (n - m.data.length) (m.illegalkey, default))
      = m.data ++ List.replicate (n - m.data.length) (m.illegalkey, default) := by
    by_cases hc : n ≤ m.data.length
    · have hn : n = m.data.length := le_antisymm hc hlen
      rw [if_pos hc, hn, List.take_length, Nat.sub_self, List.replicate_zero,
        List.append_nil]
    · rw [if_neg hc]
  rw [hif] at hrun
  obtain ⟨h0, hun, hnd, hillk, hdisj, hnum⟩ := hbase
  set mext : CuckooMap V :=
    { m with data := m.data ++ List.replicate (n - m.data.length) (m.illegalkey, default) }
    with hmext
  have hext_len : mext.data.length = n := by
    show (m.data ++ _).length = n
    rw [List.length_append, List.length_replicate]
    omega
  have hext_low : ∀ j, j < m.data.length → slotPair mext j = slotPair m j := by
    intro j hj
    show (m.data ++ _).getD j (m.illegalkey, default) = _
    rw [getD_append_left _ _ _ _ hj]
    rfl
  have hext_high : ∀ j, m.data.length ≤ j → slotKey mext j = m.illegalkey := by
    intro j hj
    show ((m.data ++ _).getD j (m.illegalkey, default)).1 = m.illegalkey
    rw [getD_append_ill _ _ _ _ hj]
  have hext_live : liveList mext = liveList m := by
    rw [liveList_eq_liveL, liveList_eq_liveL]
    show liveL m.illegalkey (m.data ++ _) = _
    rw [liveL_append, liveL_replicate_ill, List.append_nil]
  have hext_entries : entries mext = entries m := by
    rw [entries, entries, hext_live]
  have hext_lowK : ∀ j, j < m.data.length → slotKey mext j = slotKey m j :=
    fun j hj => congrArg Prod.fst (hext_low j hj)
  have hbase_ext : BaseOK mext := by
    refine ⟨by rw [hext_len]; omega, ?_, hnd, hillk, ?_, ?_⟩
    · intro a ha b hb heq hne
      rw [hext_len] at ha hb
      by_cases hal : a < m.data.length
      · by_cases hbl : b < m.data.length
        · rw [hext_lowK a hal, hext_lowK b hbl] at heq
          rw [hext_lowK a hal] at hne
          exact hun a hal b hbl heq hne
        · rw [hext_lowK a hal] at heq hne
          rw [show slotKey mext b = m.illegalkey from hext_high b (by omega)] at heq
          exact absurd heq hne
      · rw [show slotKey mext a = m.illegalkey from hext_high a (by omega)] at hne
        exact absurd rfl hne
    · intro kv hkv
      rw [hext_live]
      exact hdisj kv hkv
    · show m.numel = (entries mext).length
      rw [hext_entries]
      exact hnum
  obtain ⟨hwf', hpars', hlen', hperm'⟩ := hreh mext m' hbase_ext hrun
  refine ⟨⟨hwf', hpars', ?_, ?_⟩, ?_⟩
  · calc m.data.length ≤ n := hlen
    _ = mext.data.length := hext_len.symm
    _ ≤ m'.data.length := hlen'
  · rw [← hext_entries]
    exact hperm'
  · rw [← hext_len]
    exact hlen'

theorem rehash_step {V : Type} [Inhabited V] (fuel : Nat)
    (hslots : SlotsSpec V fuel) (hstash : StashSpec V fuel) :
    RehSpec V (fuel + 1) := by
  intro m m' hbase hrun
  simp only [cm_rehash] at hrun
  obtain ⟨m1, h1, h2⟩ := Option.bind_eq_some.mp hrun
  obtain ⟨h0, hun, hnd, hillk, hdisj, hnum⟩ := hbase
  set m0 : CuckooMap V := { m with stash := [], numel := m.numel - m.stash.length }
    with hm0
  have hm0_entries : entries m0 = liveList m := by
    show liveList m0 ++ [] = liveList m
    rw [List.append_nil]
    rfl
  have hlen_split : (entries m).length = (liveList m).length + m.stash.length := by
    rw [entries, List.length_append]
  have hbase0 : BaseOK m0 := by
    refine ⟨h0, hun, List.nodup_nil, ?_, ?_, ?_⟩
    · intro kv hkv; simp at hkv
    · intro kv hkv; simp at hkv
    · show m.numel - m.stash.length = (entries m0).length
      rw [hm0_entries, hnum, hlen_split]
      omega
  obtain ⟨hwf1, hpars1, hlen1, hperm1⟩ := hslots m0 0 m1 hbase0 (fun j hj _ => by omega) h1
  rw [hm0_entries] at hperm1
  have hkeys_perm := hperm1.map Prod.fst
  have hres := hstash m1 m.stash m' hwf1
    (by
      intro kv hkv
      rw [hpars1.1]
      exact hillk kv hkv)
    hnd
    (by
      intro kv hkv hmem
      exact hdisj kv hkv (hkeys_perm.mem_iff.mp hmem))
    h2
  obtain ⟨hwf', hpars', hlen', hperm'⟩ := hres
  have hparsA : SamePars m m0 := ⟨rfl, rfl, rfl, rfl⟩
  refine ⟨hwf', hparsA.trans (hpars1.trans hpars'), le_trans hlen1 hlen', ?_⟩
  exact hperm'.trans (hperm1.append_right m.stash)

theorem insert_step {V : Type} [Inhabited V] (fuel : Nat)
    (hdo : DoSpec V fuel) : InsSpec V (fuel + 1) := by
  intro m kv m' hbase hkll himp hrun
  rw [cm_insert] at hrun
  by_cases hfind : (findLoc m kv.1).isSome = true
  · rw [if_pos hfind] at hrun
    cases hrun
    refine ⟨hbase, fun j hj => Or.inr ⟨rfl, rfl⟩, SamePars.refl _, le_refl _,
      fun _ => rfl, ?_⟩
    intro hnone
    rw [hnone] at hfind
    simp at hfind
  · have hnone : findLoc m kv.1 = none := by
      rcases h : findLoc m kv.1 with _ | l
      · rfl
      · rw [h] at hfind; simp at hfind
    rw [if_neg hfind] at hrun
    obtain ⟨out, hout, hfst⟩ := Option.map_eq_some'.mp hrun
    obtain ⟨hbaseO, hgoodO, hparsO, hlenO, hpermO, _⟩ :=
      hdo m kv out hbase hkll (himp hnone) hout
    subst hfst
    refine ⟨hbaseO, hgoodO, hparsO, hlenO, ?_, fun _ => hpermO⟩
    intro hsome
    rw [hnone] at hsome
    simp at hsome

theorem rehash_stash_step {V : Type} [Inhabited V] (fuel : Nat)
    (hins : InsSpec V fuel) (hself : StashSpec V fuel) : StashSpec V (fuel + 1) := by
  intro m rest m' hwf hillr hnd hdisj hrun
  match rest with
  | [] =>
    rw [cm_rehash_stash] at hrun
    cases hrun
    exact ⟨hwf, SamePars.refl _, le_refl _, by rw [List.append_nil]⟩
  | kv :: rest =>
    rw [cm_rehash_stash] at hrun
    obtain ⟨m1, h1, h2⟩ := Option.bind_eq_some.mp hrun
    have hkv_ill : kv.1 ≠ m.illegalkey := hillr kv (List.mem_cons_self _ _)
    have hkv_fresh : FreshPos m kv.1 :=
      (freshPos_iff m kv.1 hkv_ill).mpr (hdisj kv (List.mem_cons_self _ _))
    have hfind : findLoc m kv.1 = none := findLoc_eq_none_of_fresh hwf.1.1 hkv_fresh
    obtain ⟨hbase1, hgood1, hpars1, hlen1, _, hperm1'⟩ :=
      hins m kv m1 hwf.1 hkv_ill (fun _ => hkv_fresh) h1
    have hperm1 := hperm1' hfind
    have hwf1 : WF m1 := by
      refine ⟨hbase1, fun j hj => ?_⟩
      rcases hgood1 j hj with hg | ⟨hleq, hsp⟩
      · exact hg
      · exact GSlot_of_eq hleq hpars1.1 hpars1.2.2.1 hsp (hwf.2 j (by omega))
    have hkeys1 : (List.map Prod.fst (entries m1)).Perm
        (kv.1 :: List.map Prod.fst (entries m)) := hperm1.map Prod.fst
    have hnd_head : kv.1 ∉ keysOf rest := by
      rw [keysOf, List.map_cons] at hnd
      exact (List.nodup_cons.mp hnd).1
    have hres := hself m1 rest m' hwf1
      (by
        intro kv' hkv'
        rw [hpars1.1]
        exact hillr kv' (List.mem_cons_of_mem _ hkv'))
      (by
        rw [keysOf, List.map_cons] at hnd
        exact (List.nodup_cons.mp hnd).2)
      (by
        intro kv' hkv' hmem
        have hmem2 : kv'.1 ∈ kv.1 :: List.map Prod.fst (entries m) :=
          hkeys1.mem_iff.mp hmem
        rcases List.mem_cons.mp hmem2 with heq | hmem3
        · exact hnd_head (heq ▸ List.mem_map.mpr ⟨kv', hkv', rfl⟩)
        · exact hdisj kv' (List.mem_cons_of_mem _ hkv') hmem3)
      h2
    obtain ⟨hwf', hpars', hlen', hperm'⟩ := hres
    refine ⟨hwf', hpars1.trans hpars', le_trans hlen1 hlen', ?_⟩
    have hstep : ((kv :: entries m) ++ rest).Perm (entries m ++ kv :: rest) :=
      List.perm_middle.symm
    exact (hperm'.trans (hperm1.append_right rest)).trans hstep

theorem rehash_slots_step {V : Type} [Inhabited V] (fuel : Nat)
    (hins : InsSpec V fuel) (hself : SlotsSpec V fuel) : SlotsSpec V (fuel + 1) := by
  intro m i m' hbase hgood hrun
  rw [cm_rehash_slots] at hrun
  by_cases hi : i < m.data.length
  case neg =>
    rw [if_neg hi] at hrun
    cases hrun
    exact ⟨⟨hbase, fun j hj => hgood j (by omega) hj⟩, SamePars.refl _, le_refl _,
      List.Perm.refl _⟩
  case pos =>
    rw [if_pos hi] at hrun
    obtain ⟨mS, hstep, hrec⟩ := Option.bind_eq_some.mp hrun
    obtain ⟨h0, hun, hnd, hillk, hdisj, hnum⟩ := hbase
    by_cases hill : slotKey m i = m.illegalkey
    · rw [if_pos hill] at hstep
      cases hstep
      refine hself m (i + 1) m' ⟨h0, hun, hnd, hillk, hdisj, hnum⟩ ?_ hrec
      intro j hj hjl
      rcases Nat.lt_succ_iff_lt_or_eq.mp hj with hj' | rfl
      · exact hgood j hj' hjl
      · exact Or.inl hill
    · rw [if_neg hill] at hstep
      by_cases hcount : countB m (slotKey m i) = true
      · rw [if_pos hcount] at hstep
        cases hstep
        have hGi : GSlot m i := by
          rw [countB, Bool.or_eq_true] at hcount
          rcases hcount with hfd | hlk
          · rcases hfd2 : findData m (slotKey m i) with _ | idx
            · rw [hfd2] at hfd; simp at hfd
            · obtain ⟨hidx_lt, hidx_key, hidx_mem⟩ := findData_some_spec h0 hfd2
              have heq := hun idx hidx_lt i hi (by rw [hidx_key]) (by rw [hidx_key]; exact hill)
              subst heq
              right
              exact hidx_mem
          · exfalso
            have hmem := (lookup_isSome_iff _ _).mp hlk
            obtain ⟨kv', hkv', hfst⟩ := List.mem_map.mp hmem
            apply hdisj kv' hkv'
            rw [hfst]
            rw [liveList_eq_liveL]
            rw [mem_keys_liveL hill]
            exact ⟨i, hi, rfl⟩
        refine hself m (i + 1) m' ⟨h0, hun, hnd, hillk, hdisj, hnum⟩ ?_ hrec
        intro j hj hjl
        rcases Nat.lt_succ_iff_lt_or_eq.mp hj with hj' | rfl
        · exact hgood j hj' hjl
        · exact hGi
      · rw [if_neg hcount] at hstep
        -- erase slot i and reinsert its pair
        rw [countB, Bool.or_eq_true] at hcount
        push_neg at hcount
        obtain ⟨hfd_false, hlk_false⟩ := hcount
        have hstash_none : m.stash.lookup (slotKey m i) = none := by
          rcases h : m.stash.lookup (slotKey m i) with _ | v
          · rfl
          · exfalso; apply hlk_false; rw [h]; rfl
        set kv : Nat × V := slotPair m i with hkv
        have hkv_key : kv.1 = slotKey m i := rfl
        have hkv_ill : kv.1 ≠ m.illegalkey := hill
        have hkv_live : kv ∈ liveList m := by
          rw [liveList_eq_liveL, mem_liveL]
          constructor
          · show m.data.getD i (m.illegalkey, default) ∈ m.data
            rw [List.getD_eq_getElem _ _ hi]
            exact List.getElem_mem _
          · exact hkv_ill
        set mE : CuckooMap V :=
          { m with data := m.data.set i (m.illegalkey, default), numel := m.numel - 1 }
          with hmE
        have hE_len : mE.data.length = m.data.length := List.length_set _ _ _
        have hE_slot_self : slotPair mE i = (m.illegalkey, default) :=
          getD_set_self _ _ _ _ hi
        have hE_slot_ne : ∀ j, j ≠ i → slotPair mE j = slotPair m j :=
          fun j hj => getD_set_ne _ _ _ _ _ hj
        have hE_key_self : slotKey mE i = m.illegalkey :=
          congrArg Prod.fst hE_slot_self
        have hE_key_ne : ∀ j, j ≠ i → slotKey mE j = slotKey m j :=
          fun j hj => congrArg Prod.fst (hE_slot_ne j hj)
        have hE_perm : (kv :: liveList mE).Perm (liveList m) :=
          liveL_set_to_empty hi hkv_ill default
        have hE_live_len : (liveList m).length = (liveList mE).length + 1 := by
          have := hE_perm.length_eq
          simpa using this.symm
        have hbaseE : BaseOK mE := by
          refine ⟨by rw [hE_len]; exact h0, ?_, hnd, hillk, ?_, ?_⟩
          · intro a ha b hb heq hne
            rw [hE_len] at ha hb
            by_cases hae : a = i
            · rw [hae, hE_key_self] at hne
              exact absurd rfl hne
            · by_cases hbe : b = i
              · rw [hE_key_ne a hae] at heq hne
                rw [hbe, hE_key_self] at heq
                exact absurd heq hne
              · rw [hE_key_ne a hae] at heq hne
                rw [hE_key_ne b hbe] at heq
                exact hun a ha b hb heq hne
          · intro kv' hkv' hmem
            apply hdisj kv' hkv'
            have hsub : kv'.1 ∈ List.map Prod.fst (kv :: liveList mE) :=
              List.mem_cons_of_mem _ hmem
            exact (hE_perm.map Prod.fst).mem_iff.mp hsub
          · show m.numel - 1 = (entries mE).length
            rw [entries, List.length_append]
            have h1 : 1 ≤ (liveList m).length := by
              have := List.length_pos.mpr (List.ne_nil_of_mem hkv_live)
              omega
            have h2 : (entries m).length = (liveList m).length + m.stash.length := by
              rw [entries, List.length_append]
            show m.numel - 1 = (liveList mE).length + m.stash.length
            omega
        have hfreshE : FreshPos mE kv.1 := by
          constructor
          · intro j hj
            rw [hE_len] at hj
            by_cases hje : j = i
            · rw [hje, hE_key_self]
              exact fun hcon => hkv_ill hcon.symm
            · rw [hE_key_ne j hje]
              intro hcon
              exact hje (hun j hj i hi (by rw [hcon, hkv_key]) (by rw [hcon]; exact hkv_ill))
          · exact hstash_none
        have hfindE : findLoc mE kv.1 = none :=
          findLoc_eq_none_of_fresh (by rw [hE_len]; exact h0) hfreshE
        obtain ⟨hbaseS, hgoodS, hparsS, hlenS, _, hpermS'⟩ :=
          hins mE kv mS hbaseE hkv_ill (fun _ => hfreshE) hstep
        have hpermS := hpermS' hfindE
        have hperm_total : (entries mS).Perm (entries m) := by
          have h1 : (kv :: entries mE).Perm (entries m) := by
            show (kv :: (liveList mE ++ m.stash)).Perm (liveList m ++ m.stash)
            exact hE_perm.append_right m.stash
          exact hpermS.trans h1
        have hgood_rec : ∀ j, j < i + 1 → j < mS.data.length → GSlot mS j := by
          intro j hj hjl
          rcases hgoodS j hjl with hg | ⟨hleq, hsp⟩
          · exact hg
          · rcases Nat.lt_succ_iff_lt_or_eq.mp hj with hj' | rfl
            · have hjne : j ≠ i := by omega
              have hslots : slotPair mS j = slotPair m j := by
                rw [hsp, hE_slot_ne j hjne]
              exact @GSlot_of_eq V _ m mS j (by rw [hleq, hE_len])
                hparsS.1 hparsS.2.2.1 hslots
                (hgood j hj' (by rw [← hE_len, ← hleq]; exact hjl))
            · left
              show slotKey mS j = mS.illegalkey
              rw [slotKey, ← slotPair, hsp, hE_slot_self, hparsS.1]
        obtain ⟨hwf', hpars', hlen', hperm'⟩ := hself mS (i + 1) m' hbaseS hgood_rec hrec
        have hparsE : SamePars m mE := ⟨rfl, rfl, rfl, rfl⟩
        refine ⟨hwf', hparsE.trans (hparsS.trans hpars'), ?_, ?_⟩
        · rw [← hE_len] at *
          omega
        · exact hperm'.trans hperm_total

theorem do_insert_step {V : Type} [Inhabited V] (fuel : Nat)
    (hres : ResSpec V fuel) : DoSpec V (fuel + 1) := by
  intro m kv out hbase hkll hfresh hrun
  rw [cm_do_insert] at hrun
  obtain ⟨m1, hm1, hbody⟩ := Option.bind_eq_some.mp hrun
  have hm1facts : BaseOK m1 ∧ GoodOrOld m m1 ∧ SamePars m m1 ∧
      m.data.length ≤ m1.data.length ∧ (entries m1).Perm (entries m) := by
    by_cases hstash : m.stash.length > m.maxstash
    · rw [if_pos hstash] at hm1
      have hgrow : m.data.length ≤ growLen m.data.length := by
        rw [growLen]; omega
      obtain ⟨⟨hwf1, hpars1, hlen1, hperm1⟩, _⟩ :=
        hres m (growLen m.data.length) m1 hbase hgrow hm1
      exact ⟨hwf1.1, fun j hj => Or.inl (hwf1.2 j hj), hpars1, hlen1, hperm1⟩
    · rw [if_neg hstash] at hm1
      cases hm1
      exact ⟨hbase, fun j hj => Or.inr ⟨rfl, rfl⟩, SamePars.refl _, le_refl _,
        List.Perm.refl _⟩
  obtain ⟨hbase1, hgood1, hpars1, hlen1, hperm1⟩ := hm1facts
  obtain ⟨h01, hun1, hnd1, hillk1, hdisj1, hnum1⟩ := hbase1
  have hk_not_mem : kv.1 ∉ keysOf (entries m) := (freshPos_iff m kv.1 hkll).mp hfresh
  have hkll1 : kv.1 ≠ m1.illegalkey := by rw [hpars1.1]; exact hkll
  have hfresh1 : FreshPos m1 kv.1 := by
    apply (freshPos_iff m1 kv.1 hkll1).mpr
    intro hmem
    exact hk_not_mem ((hperm1.map Prod.fst).mem_iff.mp hmem)
  have hkv_stash : kv.1 ∉ keysOf m1.stash := (lookup_eq_none_iff _ _).mp hfresh1.2
  have hinv : WalkInv m1.illegalkey kv m1.data kv none :=
    ⟨h01, hkll1, hfresh1.1, hun1, rfl⟩
  have hwalk := cuckooWalk_spec m1.illegalkey m1.hashfun m1.rng kv hkll1 100
    m1.data m1.rngPos kv none hinv
  dsimp only at hbody
  rcases hwres : cuckooWalk m1.illegalkey m1.hashfun m1.rng 100 m1.data m1.rngPos
      kv none with ⟨d, p, ipos⟩ | ⟨d, p, hand', ipos⟩ <;>
    rw [hwres] at hbody hwalk
  · -- placed
    obtain ⟨hlenW, hpermW, hunW, hgoodW, q, hqi, hqlt, hqeq⟩ := hwalk
    rw [hqi] at hbody
    cases hbody
    refine ⟨?_, ?_, ?_, ?_, ?_, ?_⟩
    · -- BaseOK
      refine ⟨by rw [hlenW] at *; exact h01, hunW, hnd1, hillk1, ?_, ?_⟩
      · intro s hs hmem
        have hmem2 : s.1 ∈ List.map Prod.fst (kv :: liveL m1.illegalkey m1.data) :=
          (hpermW.map Prod.fst).mem_iff.mp hmem
        rcases List.mem_cons.mp hmem2 with heq | hmem3
        · exact hkv_stash (heq ▸ List.mem_map.mpr ⟨s, hs, rfl⟩)
        · exact hdisj1 s hs hmem3
      · show m1.numel + 1 = (liveL m1.illegalkey d ++ m1.stash).length
        have hl : (liveL m1.illegalkey d).length =
            (liveL m1.illegalkey m1.data).length + 1 := by
          simpa using hpermW.length_eq
        have hl2 : (entries m1).length =
            (liveL m1.illegalkey m1.data).length + m1.stash.length := by
          rw [entries, List.length_append, liveList_eq_liveL]
        rw [List.length_append]
        omega
    · -- GoodOrOld
      intro j hj
      rcases hgoodW j hj with hg | hsame
      · exact Or.inl hg
      · have hjlt1 : j < m1.data.length := by rw [← hlenW]; exact hj
        rcases hgood1 j hjlt1 with hg1 | ⟨hleq1, hsp1⟩
        · left
          exact @GSlot_of_eq V _ m1 _ j (by rw [hlenW]) rfl rfl hsame hg1
        · right
          refine ⟨by rw [hlenW, hleq1], ?_⟩
          show d.getD j (m1.illegalkey, default) = slotPair m j
          rw [hsame]
          exact hsp1
    · exact hpars1.trans ⟨rfl, rfl, rfl, rfl⟩
    · show m.data.length ≤ d.length
      rw [hlenW]
      exact hlen1
    · show (liveL m1.illegalkey d ++ m1.stash).Perm (kv :: entries m)
      have h1 : (liveL m1.illegalkey d ++ m1.stash).Perm
          ((kv :: liveL m1.illegalkey m1.data) ++ m1.stash) :=
        hpermW.append_right m1.stash
      exact h1.trans ((hperm1.cons kv))
    · show LocHolds _ kv (CLoc.inData q)
      exact ⟨hqlt, hqeq⟩
  · -- full: the hand goes to the stash
    obtain ⟨hlenW, hpermW, hunW, hgoodW, hh', hfrW, hipW⟩ := hwalk
    have hand_mem : hand' ∈ kv :: liveL m1.illegalkey m1.data :=
      hpermW.mem_iff.mp (List.mem_cons_self _ _)
    have hand_stash : hand'.1 ∉ keysOf m1.stash := by
      rcases List.mem_cons.mp hand_mem with heq | hmem
      · rw [heq]; exact hkv_stash
      · intro hcon
        obtain ⟨s, hs, hfst⟩ := List.mem_map.mp hcon
        apply hdisj1 s hs
        rw [hfst]
        exact List.mem_map.mpr ⟨hand', hmem, rfl⟩
    have hlk_none : m1.stash.lookup hand'.1 = none :=
      (lookup_eq_none_iff _ _).mpr hand_stash
    dsimp only at hbody
    rw [stashInsert_of_absent hlk_none] at hbody
    cases hbody
    have hlive_len : (liveL m1.illegalkey d).length =
        (liveL m1.illegalkey m1.data).length := by
      simpa using hpermW.length_eq
    refine ⟨?_, ?_, ?_, ?_, ?_, ?_⟩
    · -- BaseOK
      refine ⟨by rw [hlenW] at *; exact h01, hunW, ?_, ?_, ?_, ?_⟩
      · show (hand'.1 :: keysOf m1.stash).Nodup
        exact List.nodup_cons.mpr ⟨hand_stash, hnd1⟩
      · intro s hs
        rcases List.mem_cons.mp hs with rfl | hs2
        · exact hh'
        · exact hillk1 s hs2
      · intro s hs hmem
        have hs1ill : s.1 ≠ m1.illegalkey := by
          rcases List.mem_cons.mp hs with rfl | hs2
          · exact hh'
          · exact hillk1 s hs2
        rcases List.mem_cons.mp hs with rfl | hs2
        · obtain ⟨j, hj, hjk⟩ := (mem_keys_liveL hs1ill).mp hmem
          exact hfrW j hj hjk
        · have hmem2 : s.1 ∈ List.map Prod.fst (hand' :: liveL m1.illegalkey d) :=
            List.mem_cons_of_mem _ hmem
          have hmem3 : s.1 ∈ List.map Prod.fst (kv :: liveL m1.illegalkey m1.data) :=
            (hpermW.map Prod.fst).mem_iff.mp hmem2
          rcases List.mem_cons.mp hmem3 with heq | hmem4
          · exact hkv_stash (heq ▸ List.mem_map.mpr ⟨s, hs2, rfl⟩)
          · exact hdisj1 s hs2 hmem4
      · show m1.numel + 1 = (liveL m1.illegalkey d ++ (hand' :: m1.stash)).length
        have hl2 : (entries m1).length =
            (liveL m1.illegalkey m1.data).length + m1.stash.length := by
          rw [entries, List.length_append, liveList_eq_liveL]
        rw [List.length_append, List.length_cons, hlive_len]
        omega
    · -- GoodOrOld
      intro j hj
      rcases hgoodW j hj with hg | hsame
      · exact Or.inl hg
      · have hjlt1 : j < m1.data.length := by rw [← hlenW]; exact hj
        rcases hgood1 j hjlt1 with hg1 | ⟨hleq1, hsp1⟩
        · left
          exact @GSlot_of_eq V _ m1 _ j (by rw [hlenW]) rfl rfl hsame hg1
        · right
          refine ⟨by rw [hlenW, hleq1], ?_⟩
          show d.getD j (m1.illegalkey, default) = slotPair m j
          rw [hsame]
          exact hsp1
    · exact hpars1.trans ⟨rfl, rfl, rfl, rfl⟩
    · show m.data.length ≤ d.length
      rw [hlenW]
      exact hlen1
    · show (liveL m1.illegalkey d ++ (hand' :: m1.stash)).Perm (kv :: entries m)
      have h1 : (liveL m1.illegalkey d ++ (hand' :: m1.stash)).Perm
          ((hand' :: liveL m1.illegalkey d) ++ m1.stash) := List.perm_middle
      have h2 : ((hand' :: liveL m1.illegalkey d) ++ m1.stash).Perm
          ((kv :: liveL m1.illegalkey m1.data) ++ m1.stash) :=
        hpermW.append_right m1.stash
      exact (h1.trans h2).trans (hperm1.cons kv)
    · -- LocHolds
      rcases ipos with _ | q
      · have hext : hand' = kv := hipW
        show LocHolds _ kv (CLoc.inStash hand'.1)
        refine ⟨congrArg Prod.fst hext, ?_⟩
        show ((hand' :: m1.stash).lookup kv.1) = some kv.2
        rw [← hext]
        exact lookup_cons_self hand'.1 hand'.2 m1.stash
      · obtain ⟨hq1, hq2, _⟩ := hipW
        show LocHolds _ kv (CLoc.inData q)
        exact ⟨hq1, hq2⟩

theorem cm_master (V : Type) [Inhabited V] : ∀ fuel : Nat,
    DoSpec V fuel ∧ InsSpec V fuel ∧ ResSpec V fuel ∧ RehSpec V fuel ∧
    SlotsSpec V fuel ∧ StashSpec V fuel := by
  intro fuel
  induction fuel with
  | zero =>
    refine ⟨?_, ?_, ?_, ?_, ?_, ?_⟩
    · intro m kv out _ _ _ h
      exact absurd h (by rw [cm_do_insert]; simp)
    · intro m kv m' _ _ _ h
      exact absurd h (by rw [cm_insert]; simp)
    · intro m n m' _ _ h
      exact absurd h (by rw [cm_reserve]; simp)
    · intro m m' _ h
      exact absurd h (by rw [cm_rehash]; simp)
    · intro m i m' _ _ h
      exact absurd h (by rw [cm_rehash_slots]; simp)
    · intro m rest m' _ _ _ _ h
      exact absurd h (by rw [cm_rehash_stash]; simp)
  | succ n ih =>
    obtain ⟨hdo, hins, hres, hreh, hslots, hstash⟩ := ih
    exact ⟨do_insert_step n hres, insert_step n hdo, reserve_step n hreh,
      rehash_step n hslots hstash, rehash_slots_step n hins hslots,
      rehash_stash_step n hins hstash⟩

/-! ### Cuckoo map: round-trip helper lemmas -/

theorem GSlot_of_key_eq {V : Type} [Inhabited V] {m m' : CuckooMap V} {j : Nat}
    (hlen : m'.data.length = m.data.length) (hill : m'.illegalkey = m.illegalkey)
    (hhf : m'.hashfun = m.hashfun) (hkey : slotKey m' j = slotKey m j)
    (hg : GSlot m j) : GSlot m' j := by
  rcases hg with hleft | hright
  · left
    rw [hkey, hill, hleft]
  · right
    rw [probeList, hkey, hlen, hhf]
    exact hright

theorem keysOf_assocSet {V : Type} (l : List (Nat × V)) (k : Nat) (v : V) :
    keysOf (assocSet l k v) = keysOf l := by
  induction l with
  | nil => rfl
  | cons p rest ih =>
    rw [assocSet]
    by_cases hp : p.1 = k
    · rw [if_pos hp]
      show k :: keysOf rest = p.1 :: keysOf rest
      rw [hp]
    · rw [if_neg hp]
      show p.1 :: keysOf (assocSet rest k v) = p.1 :: keysOf rest
      rw [ih]

theorem lookup_assocSet_self {V : Type} {l : List (Nat × V)} {k : Nat} (v : V)
    (h : (l.lookup k).isSome = true) : (assocSet l k v).lookup k = some v := by
  induction l with
  | nil => simp [List.lookup] at h
  | cons p rest ih =>
    rw [assocSet]
    by_cases hp : p.1 = k
    · rw [if_pos hp]
      exact lookup_cons_self k v rest
    · rw [if_neg hp]
      rw [List.lookup] at h ⊢
      have hb : (k == p.1) = false := by
        simp
        exact fun hcon => hp hcon.symm
      rw [hb] at h ⊢
      exact ih h

theorem lookup_eraseP_self_of_nodup {V : Type} {l : List (Nat × V)} {k : Nat}
    (hnd : (keysOf l).Nodup) : (l.eraseP (fun p => p.1 == k)).lookup k = none := by
  induction l with
  | nil => rfl
  | cons p rest ih =>
    have hnd2 : (keysOf rest).Nodup := by
      rw [keysOf, List.map_cons, List.nodup_cons] at hnd
      exact hnd.2
    by_cases hp : p.1 = k
    · rw [List.eraseP_cons_of_pos (by simpa using hp)]
      rw [lookup_eq_none_iff]
      rw [keysOf, List.map_cons, List.nodup_cons] at hnd
      rw [← hp]
      exact hnd.1
    · rw [List.eraseP_cons_of_neg (by simpa using hp)]
      rw [List.lookup]
      have hb : (k == p.1) = false := by
        simp
        exact fun hcon => hp hcon.symm
      rw [hb]
      exact ih hnd2

theorem countB_eq_false {V : Type} [Inhabited V] {m : CuckooMap V} {k : Nat}
    (hfd : findData m k = none) (hlk : m.stash.lookup k = none) :
    countB m k = false := by
  rw [countB, hfd, hlk]
  rfl

theorem write_read_data {V : Type} [Inhabited V] (m : CuckooMap V) (i k : Nat)
    (v : V) (h0 : 0 < m.data.length) (hun : UniqSlots m)
    (hgood : ∀ j, j < m.data.length → GSlot m j) (hk : k ≠ m.illegalkey)
    (hi : i < m.data.length) (hkey : slotKey m i = k)
    (hstash : m.stash.lookup k = none) :
    findVal (writeLoc m (CLoc.inData i) v) k = some v ∧
    countB (eraseKey (writeLoc m (CLoc.inData i) v) k) k = false := by
  set W : CuckooMap V :=
    { m with data := m.data.set i ((m.data.getD i (m.illegalkey, default)).1, v) }
    with hW
  have hlenW : W.data.length = m.data.length := List.length_set _ _ _
  have hkeyW : ∀ j, slotKey W j = slotKey m j := by
    intro j
    by_cases hj : j = i
    · subst hj
      show ((m.data.set j ((m.data.getD j (m.illegalkey, default)).1, v)).getD j
        (m.illegalkey, default)).1 = _
      rw [getD_set_self _ _ _ _ hi]
      rfl
    · show ((m.data.set i _).getD j (m.illegalkey, default)).1 = _
      rw [getD_set_ne _ _ _ _ _ hj]
      rfl
  have hunW : UniqSlots W := by
    intro a ha b hb heq hne
    rw [hlenW] at ha hb
    rw [hkeyW a, hkeyW b] at heq
    rw [hkeyW a] at hne
    exact hun a ha b hb heq hne
  have hgoodW : ∀ j, j < W.data.length → GSlot W j := by
    intro j hj
    rw [hlenW] at hj
    exact GSlot_of_key_eq hlenW rfl rfl (hkeyW j) (hgood j hj)
  have hfdW : findData W k = some i :=
    findData_of_slot hk hunW hgoodW (by rw [hlenW]; exact h0)
      (by rw [hlenW]; exact hi) (by rw [hkeyW i]; exact hkey)
  have hflW : findLoc W k = some (CLoc.inData i) := by
    rw [findLoc, hfdW]
  have hkeyWi : slotKey W i = k := by rw [hkeyW i]; exact hkey
  constructor
  · show findVal W k = some v
    rw [findVal, hflW]
    show some (readLoc W (CLoc.inData i)) = some v
    rw [readLoc]
    show some ((m.data.set i ((m.data.getD i (m.illegalkey, default)).1, v)).getD i
      (m.illegalkey, default)).2 = some v
    rw [getD_set_self _ _ _ _ hi]
  · show countB (eraseKey W k) k = false
    rw [eraseKey, hflW]
    dsimp only
    rw [if_neg (show ¬slotKey W i = W.illegalkey by rw [hkeyWi]; exact hk)]
    set E : CuckooMap V :=
      { W with data := W.data.set i (W.illegalkey, default), numel := W.numel - 1 }
      with hE
    have hlenE : E.data.length = m.data.length := by
      show (W.data.set i _).length = _
      rw [List.length_set, hlenW]
    have hfrE : ∀ j, j < E.data.length → slotKey E j ≠ k := by
      intro j hj
      rw [hlenE] at hj
      by_cases hje : j = i
      · subst hje
        show ((W.data.set j (W.illegalkey, default)).getD j (W.illegalkey, default)).1 ≠ k
        rw [getD_set_self _ _ _ _ (by rw [hlenW]; exact hi)]
        exact fun hcon => hk hcon.symm
      · show ((W.data.set i (W.illegalkey, default)).getD j (W.illegalkey, default)).1 ≠ k
        rw [getD_set_ne _ _ _ _ _ hje]
        rw [show ((W.data.getD j (W.illegalkey, default)).1 : Nat) = slotKey W j from rfl]
        rw [hkeyW j]
        intro hcon
        exact hje (hun j hj i hi (by rw [hcon, hkey]) (by rw [hcon]; exact hk))
    have hfdE : findData E k = none :=
      findData_eq_none_of_fresh (by rw [hlenE]; exact h0) hfrE
    exact countB_eq_false hfdE hstash

theorem write_read_stash {V : Type} [Inhabited V] (m : CuckooMap V) (k : Nat)
    (v : V) (h0 : 0 < m.data.length)
    (hfr : ∀ j, j < m.data.length → slotKey m j ≠ k)
    (hlk : (m.stash.lookup k).isSome = true) (hnd : (keysOf m.stash).Nodup) :
    findVal (writeLoc m (CLoc.inStash k) v) k = some v ∧
    countB (eraseKey (writeLoc m (CLoc.inStash k) v) k) k = false := by
  set W : CuckooMap V := { m with stash := assocSet m.stash k v } with hW
  have hfdW : findData W k = none := findData_eq_none_of_fresh h0 hfr
  have hlkW : W.stash.lookup k = some v := lookup_assocSet_self v hlk
  have hflW : findLoc W k = some (CLoc.inStash k) := by
    rw [findLoc, hfdW, hlkW]
    rfl
  constructor
  · show findVal W k = some v
    rw [findVal, hflW]
    show some (readLoc W (CLoc.inStash k)) = some v
    rw [readLoc, hlkW]
    rfl
  · show countB (eraseKey W k) k = false
    rw [eraseKey, hflW]
    dsimp only
    have hndW : (keysOf W.stash).Nodup := by
      show (keysOf (assocSet m.stash k v)).Nodup
      rw [keysOf_assocSet]
      exact hnd
    have hlkE : ((W.stash.eraseP (fun p => p.1 == k)).lookup k) = none :=
      lookup_eraseP_self_of_nodup hndW
    exact countB_eq_false (findData_eq_none_of_fresh h0 hfr) hlkE

/-! ### Cuckoo map: consequences of the operation specifications -/

theorem WF_of_GoodOrOld {V : Type} [Inhabited V] {m m' : CuckooMap V}
    (hwf : WF m) (hb : BaseOK m') (hg : GoodOrOld m m') (hpars : SamePars m m') :
    WF m' := by
  refine ⟨hb, fun j hj => ?_⟩
  rcases hg j hj with h | ⟨hlen, hsp⟩
  · exact h
  · exact GSlot_of_eq hlen hpars.1 hpars.2.2.1 hsp (hwf.2 j (by rw [← hlen]; exact hj))

theorem slots_fresh_of_findData_none {V : Type} [Inhabited V] {m : CuckooMap V}
    {k : Nat} (hgood : ∀ j, j < m.data.length → GSlot m j)
    (hk : k ≠ m.illegalkey) (hfd : findData m k = none) :
    ∀ j, j < m.data.length → slotKey m j ≠ k := by
  intro j hj hkey
  rcases hgood j hj with hl | hr
  · rw [hkey] at hl
    exact hk hl
  · rw [hkey] at hr
    rw [findData, List.find?_eq_none] at hfd
    have := hfd j hr
    simp at this
    exact this hkey

theorem findLoc_none_spec {V : Type} [Inhabited V] {m : CuckooMap V} {k : Nat}
    (hfl : findLoc m k = none) :
    findData m k = none ∧ m.stash.lookup k = none := by
  rw [findLoc] at hfl
  cases hfd : findData m k with
  | some i =>
    rw [hfd] at hfl
    dsimp only at hfl
    exact absurd hfl (by simp)
  | none =>
    rw [hfd] at hfl
    dsimp only at hfl
    exact ⟨rfl, Option.map_eq_none'.mp hfl⟩

theorem stash_lookup_none_of_slot {V : Type} [Inhabited V] {m : CuckooMap V}
    {k i : Nat} (hb : BaseOK m) (hk : k ≠ m.illegalkey)
    (hi : i < m.data.length) (hkey : slotKey m i = k) :
    m.stash.lookup k = none := by
  rw [lookup_eq_none_iff]
  intro hmem
  obtain ⟨s, hs, hsk⟩ := List.mem_map.mp hmem
  apply hb.2.2.2.2.1 s hs
  rw [liveList_eq_liveL, hsk]
  exact (mem_keys_liveL hk).mpr ⟨i, hi, hkey⟩

theorem slots_fresh_of_stash_mem {V : Type} [Inhabited V] {m : CuckooMap V}
    {k : Nat} (hb : BaseOK m) (hk : k ≠ m.illegalkey)
    (hlk : (m.stash.lookup k).isSome = true) :
    ∀ j, j < m.data.length → slotKey m j ≠ k := by
  intro j hj hkey
  have hmem : k ∈ keysOf m.stash := by
    by_contra hcon
    rw [(lookup_eq_none_iff _ _).mpr hcon] at hlk
    simp at hlk
  obtain ⟨s, hs, hsk⟩ := List.mem_map.mp hmem
  apply hb.2.2.2.2.1 s hs
  rw [liveList_eq_liveL, hsk]
  exact (mem_keys_liveL hk).mpr ⟨j, hj, hkey⟩

theorem insertList_spec {V : Type} [Inhabited V] (fuel : Nat) :
    ∀ (kvs : List (Nat × V)) (m m' : CuckooMap V), WF m →
      (∀ kv ∈ kvs, kv.1 ≠ m.illegalkey) →
      (keysOf kvs).Nodup →
      (∀ kv ∈ kvs, kv.1 ∉ keysOf (entries m)) →
      cm_insertList fuel m kvs = some m' →
      WF m' ∧ SamePars m m' ∧ m.data.length ≤ m'.data.length ∧
        (entries m').Perm (kvs ++ entries m) := by
  intro kvs
  induction kvs with
  | nil =>
    intro m m' hwf _ _ _ hrun
    rw [cm_insertList] at hrun
    cases hrun
    exact ⟨hwf, SamePars.refl _, le_refl _, by simp⟩
  | cons kv rest ih =>
    intro m m' hwf hill hnd hfresh hrun
    rw [cm_insertList] at hrun
    obtain ⟨m1, h1, hrest⟩ := Option.bind_eq_some.mp hrun
    have hkll : kv.1 ≠ m.illegalkey := hill kv (List.mem_cons_self _ _)
    have hfr : FreshPos m kv.1 :=
      (freshPos_iff m kv.1 hkll).mpr (hfresh kv (List.mem_cons_self _ _))
    obtain ⟨hb1, hg1, hpars1, hlen1, _, hperm1f⟩ :=
      (cm_master V fuel).2.1 m kv m1 hwf.1 hkll (fun _ => hfr) h1
    have hperm1 : (entries m1).Perm (kv :: entries m) :=
      hperm1f (findLoc_eq_none_of_fresh hwf.1.1 hfr)
    have hwf1 : WF m1 := WF_of_GoodOrOld hwf hb1 hg1 hpars1
    rw [keysOf, List.map_cons, List.nodup_cons] at hnd
    have hill1 : ∀ p ∈ rest, p.1 ≠ m1.illegalkey := by
      intro p hp
      rw [hpars1.1]
      exact hill p (List.mem_cons_of_mem _ hp)
    have hfresh1 : ∀ p ∈ rest, p.1 ∉ keysOf (entries m1) := by
      intro p hp hmem
      have h2 : p.1 ∈ List.map Prod.fst (kv :: entries m) :=
        (hperm1.map Prod.fst).mem_iff.mp hmem
      rw [List.map_cons] at h2
      rcases List.mem_cons.mp h2 with heq | hmem2
      · exact hnd.1 (heq ▸ List.mem_map.mpr ⟨p, hp, rfl⟩)
      · exact hfresh p (List.mem_cons_of_mem _ hp) hmem2
    obtain ⟨hwf2, hpars2, hlen2, hperm2⟩ := ih m1 m' hwf1 hill1 hnd.2 hfresh1 hrest
    refine ⟨hwf2, hpars1.trans hpars2, le_trans hlen1 hlen2, ?_⟩
    have hstep : (rest ++ entries m1).Perm (rest ++ (kv :: entries m)) :=
      List.Perm.append_left rest hperm1
    exact hperm2.trans (hstep.trans List.perm_middle)

/-- **C8** (table round-trip): for any well-formed Degree/Replica Table
state and any key `k` distinct from the illegal-key sentinel, writing a
value `v` through `operator[]` (`map[k] = v`: lookup-or-default-insert
followed by assignment through the returned reference) and then reading
`k` returns exactly `v`, and `erase(k)` followed by `count(k)` returns
false. -/
theorem table_roundtrip_C8 (V : Type) [Inhabited V] (fuel : Nat)
    (m m' : CuckooMap V) (k : Nat) (v : V) (hwf : WF m)
    (hk : k ≠ m.illegalkey) (hrun : cm_accessWrite fuel m k v = some m') :
    findVal m' k = some v ∧ countB (eraseKey m' k) k = false := by
  obtain ⟨hbase, hgood⟩ := hwf
  obtain ⟨h0, hun, hnd, hillk, hdisj, hnum⟩ := hbase
  rw [cm_accessWrite] at hrun
  cases hfl : findLoc m k with
  | some loc =>
    rw [hfl] at hrun
    dsimp only at hrun
    injection hrun with hm'
    subst hm'
    cases loc with
    | inData i =>
      have hfd' : findData m k = some i := by
        rw [findLoc] at hfl
        cases hfd : findData m k with
        | some i0 =>
          rw [hfd] at hfl
          dsimp only at hfl
          injection hfl with h2
          injection h2 with h3
          rw [← h3]
        | none =>
          rw [hfd] at hfl
          dsimp only at hfl
          obtain ⟨w, _, hcon⟩ := Option.map_eq_some'.mp hfl
          exact CLoc.noConfusion hcon
      obtain ⟨hi, hkey, _⟩ := findData_some_spec h0 hfd'
      have hstash : m.stash.lookup k = none :=
        stash_lookup_none_of_slot ⟨h0, hun, hnd, hillk, hdisj, hnum⟩ hk hi hkey
      exact write_read_data m i k v h0 hun hgood hk hi hkey hstash
    | inStash k0 =>
      rw [findLoc] at hfl
      cases hfd : findData m k with
      | some i0 =>
        rw [hfd] at hfl
        dsimp only at hfl
        injection hfl with h2
        exact CLoc.noConfusion h2
      | none =>
        rw [hfd] at hfl
        dsimp only at hfl
        obtain ⟨w, hw, hcon⟩ := Option.map_eq_some'.mp hfl
        have hc2 : CLoc.inStash k = CLoc.inStash k0 := hcon
        have hk0 : k0 = k := by
          injection hc2 with h3
          exact h3.symm
        rw [hk0]
        have hfr : ∀ j, j < m.data.length → slotKey m j ≠ k :=
          slots_fresh_of_findData_none hgood hk hfd
        have hlk : (m.stash.lookup k).isSome = true := by rw [hw]; rfl
        exact write_read_stash m k v h0 hfr hlk hnd
  | none =>
    rw [hfl] at hrun
    dsimp only at hrun
    obtain ⟨out, hdo, hm'⟩ := Option.map_eq_some'.mp hrun
    obtain ⟨hfd, hlk⟩ := findLoc_none_spec hfl
    have hfresh : FreshPos m k := ⟨slots_fresh_of_findData_none hgood hk hfd, hlk⟩
    obtain ⟨hbO, hgO, hparsO, hlenO, hpermO, hlocO⟩ :=
      (cm_master V fuel).1 m (k, default) out ⟨h0, hun, hnd, hillk, hdisj, hnum⟩
        hk hfresh hdo
    have hwfO : WF out.1 :=
      WF_of_GoodOrOld ⟨⟨h0, hun, hnd, hillk, hdisj, hnum⟩, hgood⟩ hbO hgO hparsO
    obtain ⟨h0O, hunO, hndO, hillkO, hdisjO, hnumO⟩ := hbO
    have hkO : k ≠ out.1.illegalkey := by rw [hparsO.1]; exact hk
    subst hm'
    rcases hout : out.2 with i | k0 <;> rw [hout] at hlocO
    · obtain ⟨hi, hsp⟩ := hlocO
      have hkey : slotKey out.1 i = k := congrArg Prod.fst hsp
      have hstash : out.1.stash.lookup k = none :=
        stash_lookup_none_of_slot ⟨h0O, hunO, hndO, hillkO, hdisjO, hnumO⟩
          hkO hi hkey
      exact write_read_data out.1 i k v h0O hunO hwfO.2 hkO hi hkey hstash
    · obtain ⟨hk0, hlkO⟩ := hlocO
      have hk0' : k0 = k := hk0
      have hlkO' : out.1.stash.lookup k = some (default : V) := hlkO
      rw [hk0']
      have hfrO : ∀ j, j < out.1.data.length → slotKey out.1 j ≠ k :=
        slots_fresh_of_stash_mem ⟨h0O, hunO, hndO, hillkO, hdisjO, hnumO⟩
          hkO (by rw [hlkO']; rfl)
      exact write_read_stash out.1 k v h0O hfrO (by rw [hlkO']; rfl) hndO

theorem table_roundtrip_C8_run : cm_accessWrite 9 mC8 5 7 = some mC8res := by
  set_option maxRecDepth 10000 in rfl

/-- Witness for C8: on the concrete two-slot table `mC8`, `map[5] = 7`
succeeds, reading key 5 back gives 7, and after `erase(5)`, `count(5)`
is false. -/
theorem table_roundtrip_C8_witness :
    findVal mC8res 5 = some 7 ∧ countB (eraseKey mC8res 5) 5 = false :=
  table_roundtrip_C8 Nat 9 mC8 mC8res 5 7 (by decide) (by decide)
    table_roundtrip_C8_run

/-- **C9** (rehash preservation): inserting a list of distinct
non-sentinel keys into a well-formed empty table — however many
resizes/rehashes the run needs — yields a table whose iteration
(`begin()`..`end()`: live slots then stash) is a permutation of exactly
the inserted pairs, with `size()` equal to their number: every entry
survives exactly once with its correct value, none duplicated, none
lost. -/
theorem rehash_preservation_C9 (V : Type) [Inhabited V] (fuel : Nat)
    (m m' : CuckooMap V) (kvs : List (Nat × V)) (hwf : WF m)
    (hempty : entries m = []) (hill : ∀ kv ∈ kvs, kv.1 ≠ m.illegalkey)
    (hnd : (keysOf kvs).Nodup)
    (hrun : cm_insertList fuel m kvs = some m') :
    (entries m').Perm kvs ∧ m'.numel = kvs.length := by
  have hfresh : ∀ kv ∈ kvs, kv.1 ∉ keysOf (entries m) := by
    intro kv _ hmem
    rw [hempty] at hmem
    simp [keysOf] at hmem
  obtain ⟨hwf', _, _, hperm⟩ := insertList_spec fuel kvs m m' hwf hill hnd hfresh hrun
  have hperm2 : (entries m').Perm kvs := by
    rw [hempty, List.append_nil] at hperm
    exact hperm
  refine ⟨hperm2, ?_⟩
  rw [hwf'.1.2.2.2.2.2, hperm2.length_eq]

theorem rehash_preservation_C9_step1 : cm_insert 50 c9map (1, 11) = some c9m1 := by
  set_option maxRecDepth 40000 in rfl

theorem rehash_preservation_C9_step2 : cm_insert 50 c9m1 (2, 12) = some c9m2 := by
  set_option maxRecDepth 40000 in rfl

theorem rehash_preservation_C9_step3 : cm_insert 50 c9m2 (3, 13) = some c9m3 := by
  set_option maxRecDepth 40000 in rfl

theorem rehash_preservation_C9_step4 : cm_insert 50 c9m3 (4, 14) = some c9m4 := by
  set_option maxRecDepth 40000 in rfl

theorem rehash_preservation_C9_run : cm_insertList 50 c9map c9kvs = some c9m4 := by
  show cm_insertList 50 c9map ((1, 11) :: [(2, 12), (3, 13), (4, 14)]) = some c9m4
  simp only [cm_insertList, rehash_preservation_C9_step1,
    rehash_preservation_C9_step2, rehash_preservation_C9_step3,
    rehash_preservation_C9_step4, Option.some_bind]

/-- Witness for C9: four distinct keys inserted into the two-slot table
`c9map` overflow its zero-capacity stash, forcing a resize (the array
grows from 2 to 3 slots in `c9m4`); the final entries are a permutation
of the four inserted pairs and `numel` is 4. -/
theorem rehash_preservation_C9_witness :
    (entries c9m4).Perm c9kvs ∧ c9m4.numel = c9kvs.length :=
  rehash_preservation_C9 Nat 50 c9map c9m4 c9kvs (by decide) rfl (by decide)
    (by decide) rehash_preservation_C9_run

/-- **C10** (sentinel spurious hit): whenever any candidate slot of the
illegal-key sentinel is empty — in particular in a freshly constructed
map, where every slot is empty — `count(illegal_key)` returns true and
`find(illegal_key)` returns a non-end iterator, although that key was
never inserted: empty slots store the sentinel, and the candidate-slot
probe matches them. -/
theorem sentinel_spurious_hit_C10 (V : Type) [Inhabited V] (m : CuckooMap V)
    (h : ∃ j ∈ probeList m m.illegalkey, slotKey m j = m.illegalkey) :
    countB m m.illegalkey = true ∧ findLoc m m.illegalkey ≠ none := by
  obtain ⟨j, hj, hkey⟩ := h
  have hsome : (findData m m.illegalkey).isSome = true := by
    rw [findData, List.find?_isSome]
    exact ⟨j, hj, by simpa using hkey⟩
  obtain ⟨i, hi⟩ := Option.isSome_iff_exists.mp hsome
  constructor
  · rw [countB, hi]
    rfl
  · rw [findLoc, hi]
    simp

/-- Witness for C10: the freshly constructed `c10map` (sentinel 7, no
insertions) already reports `count(7) = true` and a successful find. -/
theorem sentinel_spurious_hit_C10_witness :
    countB c10map c10map.illegalkey = true ∧
    findLoc c10map c10map.illegalkey ≠ none :=
  sentinel_spurious_hit_C10 Nat c10map
    (by set_option maxRecDepth 10000 in decide)
